import Mathlib

/-!
# Reaching-definition analysis of evmdis

A shallow embedding of `reaching.go` and `typemap.go`.

* Blocks live in an arena: a `*BasicBlock` is the index of the block in
  `Program.Blocks`, a nil or dangling pointer is an index outside the arena.
* The fact stores hanging off instructions and blocks are mutated in place by
  the Go code; here every function that writes one returns the new program.
* A Go run-time fault (index out of range, failed type assertion, nil
  dereference) is the outcome `panic`, or `none` for the helper functions.
* The opcode table (`opcodes.go`) is a parameter, `OpcodeTable`.
* A Go `int` (code addresses, `pc`) is a 64-bit two-complement number: every
  addition on addresses goes through `wrapInt`, and so does the block offset
  an address starts from, which leaves an offset of the `int` range as it is.
  The conversion `big.Int.Int64` is modelled bit for bit.
-/

namespace Evmdis

/-! ## Opcode metadata (external) -/

/-- An opcode: `type OpCode byte`. -/
abbrev OpCode := Nat

/-- The opcode constants and metadata methods that `reaching.go` uses. They
are declared in the opcode table of the repository, so they are taken as a
parameter here. Counts are non-negative. -/
structure OpcodeTable where
  STOP : OpCode
  RETURN : OpCode
  INVALID : OpCode
  REVERT : OpCode
  SELFDESTRUCT : OpCode
  JUMP : OpCode
  JUMPI : OpCode
  IsPush : OpCode → Bool
  IsDup : OpCode → Bool
  IsSwap : OpCode → Bool
  StackReads : OpCode → Nat
  StackWrites : OpCode → Nat
  OperandSize : OpCode → Int

/-! ## Instruction pointers and pointer sets -/

/-- The Go struct `InstructionPointer`: the block (its arena index) and the
position of the instruction in the block. -/
structure InstructionPointer where
  OriginBlock : Nat
  OriginIndex : Nat
deriving DecidableEq, Repr

/-- The Go type `map[InstructionPointer]bool`, of which the code only ever
uses the key set: the keys, without repetition. The order of `keys` stands for
one iteration order of the map; the facts that `PerformReachesAnalysis` builds
do not depend on it, as every key of one set is appended to a list of its own.
A nil map is not modelled: the code stores only maps that it has made. -/
structure InstructionPointerSet where
  keys : List InstructionPointer
  nodup : keys.Nodup

instance : DecidableEq InstructionPointerSet := fun a b =>
  decidable_of_iff (a.keys = b.keys)
    ⟨fun h => by cases a; cases b; cases h; rfl, fun h => by rw [h]⟩

/-- The result of `make(map[InstructionPointer]bool)`. -/
def InstructionPointerSet.empty : InstructionPointerSet := ⟨[], List.nodup_nil⟩

/-- The assignment `set[p] = true`. -/
def InstructionPointerSet.add (s : InstructionPointerSet) (p : InstructionPointer) :
    InstructionPointerSet :=
  ⟨s.keys.insert p, s.nodup.insert⟩

/-- The set with the one key `p`. -/
def InstructionPointerSet.singleton (p : InstructionPointer) : InstructionPointerSet :=
  InstructionPointerSet.empty.add p

/-- The Go type `ReachingDefinition`, a slice of pointer sets; `none` is the
nil slice. -/
abbrev ReachingDefinition := Option (List InstructionPointerSet)

/-- The Go expression `len(reachings)`, which is 0 for the nil slice. -/
def ReachingDefinition.len : ReachingDefinition → Nat
  | none => 0
  | some r => r.length

/-- The Go type `ReachesDefinition`, a slice of pointers. The code never tells
the nil slice from the empty one, both are `[]`. -/
abbrev ReachesDefinition := List InstructionPointer

/-- Modelled from the spec: the `Expression` values that `String()` tells
apart (an instruction expression with its opcode and immediate, a jump label
with its textual form, anything else); their declarations are not part of
`reaching.go`. -/
inductive Expression where
  | instruction (op : OpCode) (arg : Int)
  | jumpLabel (text : String)
  | other
deriving DecidableEq, Repr

/-! ## The fact store (`typemap.go`) -/

/-- The `reflect.Type` keys under which this package stores facts. -/
inductive FactType where
  | reaching
  | reaches
  | expression
deriving DecidableEq, Repr

/-- The values of a fact type. -/
def FactType.Val : FactType → Type
  | .reaching => ReachingDefinition
  | .reaches => ReachesDefinition
  | .expression => Option Expression

/-- The Go call `reflect.Zero(t)`: the nil slice, the nil interface. -/
def FactType.zero : (t : FactType) → t.Val
  | .reaching => (none : ReachingDefinition)
  | .reaches => ([] : ReachesDefinition)
  | .expression => (none : Option Expression)

/-- The Go struct `TypeMap`: `data map[reflect.Type]interface{}`. -/
structure TypeMap where
  data : (t : FactType) → Option t.Val

/-- The Go function `NewTypeMap`. -/
def NewTypeMap : TypeMap := ⟨fun _ => none⟩

/-- The Go method `TypeMap.Get`, for a destination of type `t`: the stored
value, or the zero value of the type. This is the value that the call writes
to the destination when it does not fault, see `TypeMap.faults`: for the slice
types `ReachingDefinition` and `ReachesDefinition` it never faults. -/
def TypeMap.Get (tym : TypeMap) (t : FactType) : t.Val :=
  match tym.data t with
  | some value => value
  | none => t.zero

/-- The Go method `TypeMap.Pop`: the value `Get` yields, and the store with the
entry of `t` deleted. This is the result of the call when it does not fault,
see `TypeMap.faults`. -/
def TypeMap.Pop (tym : TypeMap) (t : FactType) : t.Val × TypeMap :=
  match tym.data t with
  | some value => (value, ⟨Function.update tym.data t none⟩)
  | none => (t.zero, tym)

/-- The Go method `TypeMap.Set`. -/
def TypeMap.Set (tym : TypeMap) (t : FactType) (value : t.Val) : TypeMap :=
  ⟨Function.update tym.data t (some value)⟩

/-- Reports whether `value` is the nil value of an interface type. Of the
fact types only `Expression` is an interface type; `Set` stores
`element.Interface()`, which for a nil `Expression` is the nil `interface{}`. -/
def FactType.nilInterface : (t : FactType) → t.Val → Bool
  | .reaching => fun _ => false
  | .reaches => fun _ => false
  | .expression => fun (value : Option Expression) => value.isNone

/-- Reports whether `Get` and `Pop` fault for a destination of type `t`. Both
run `element.Set(reflect.ValueOf(value))` on the stored value, and
`reflect.ValueOf` of the nil `interface{}` is the zero `reflect.Value`, which
`reflect.Value.Set` rejects with a run-time fault. -/
def TypeMap.faults (tym : TypeMap) (t : FactType) : Bool :=
  match tym.data t with
  | some value => t.nilInterface value
  | none => false

/-- The Go method `TypeMap.Get` with its fault: `none` when the call faults,
else the value written to the destination. The store is not changed. -/
def TypeMap.Get? (tym : TypeMap) (t : FactType) : Option t.Val :=
  if tym.faults t then none else some (tym.Get t)

/-- The Go method `TypeMap.Pop` with its fault: `none` when the call faults
(before the entry is deleted), else the value written to the destination and
the store after the call. -/
def TypeMap.Pop? (tym : TypeMap) (t : FactType) : Option (t.Val × TypeMap) :=
  if tym.faults t then none else some (tym.Pop t)

/-! ## The program graph -/

/-- Modelled from the spec: an `Instruction` is an opcode, an immediate
argument (an arbitrary-size integer, meaningful for push opcodes) and a fact
store. -/
structure Instruction where
  Op : OpCode
  Arg : Int
  Annotations : TypeMap

/-- Modelled from the spec: a `BasicBlock` is a starting code address, its
instructions, the optional fallthrough successor and a fact store. -/
structure BasicBlock where
  Offset : Int
  Instructions : List Instruction
  Next : Option Nat
  Annotations : TypeMap

/-- Modelled from the spec: a `Program` is the sequence of its blocks and the
map from code address to block for the known jump targets. -/
structure Program where
  Blocks : List BasicBlock
  JumpDestinations : Int → Option Nat

/-- The block a `*BasicBlock` points to. -/
def Program.block (prog : Program) (b : Nat) : Option BasicBlock :=
  prog.Blocks[b]?

/-- The Go method `InstructionPointer.Get`; `none` when the index is out of
range. -/
def InstructionPointer.Get (prog : Program) (instr : InstructionPointer) : Option Instruction :=
  match prog.block instr.OriginBlock with
  | none => none
  | some blk => blk.Instructions[instr.OriginIndex]?

/-- Writing through the pointer that `Get` returns: the instruction that
`instr` denotes is replaced. -/
def Program.setInst (prog : Program) (instr : InstructionPointer) (inst : Instruction) : Program :=
  { prog with
    Blocks := prog.Blocks.modify
      (fun blk => { blk with Instructions := blk.Instructions.set instr.OriginIndex inst })
      instr.OriginBlock }

/-- Replacing the fact store of block `b`. -/
def Program.setBlockAnnotations (prog : Program) (b : Nat) (a : TypeMap) : Program :=
  { prog with Blocks := prog.Blocks.modify (fun blk => { blk with Annotations := a }) b }

/-- The value a Go `int` holds after an arithmetic result `x`: the 64-bit
two-complement number congruent to `x` modulo `2 ^ 64`. A value of the `int`
range is left as it is. -/
def wrapInt (x : Int) : Int := (x + 2 ^ 63) % 2 ^ 64 - 2 ^ 63

/-- The Go method `InstructionPointer.GetAddress`: starting from the `int`
`Offset` of the block, the loop adds `OperandSize() + 1` for every instruction
before `OriginIndex`, in `int` arithmetic, and faults when one of these indices
is out of range. -/
def InstructionPointer.GetAddress (T : OpcodeTable) (prog : Program)
    (instr : InstructionPointer) : Option Int :=
  match prog.block instr.OriginBlock with
  | none => none
  | some blk =>
    if instr.OriginIndex ≤ blk.Instructions.length then
      some ((blk.Instructions.take instr.OriginIndex).foldl
        (fun address inst => wrapInt (address + wrapInt (T.OperandSize inst.Op + 1)))
        (wrapInt blk.Offset))
    else none

/-- The Go method `big.Int.Int64`: the low 64 bits of the magnitude as a
two-complement `int64`, negated (with wrap-around) for a negative number. -/
def Int64 (x : Int) : Int :=
  let lo : Int := ((x.natAbs % 2 ^ 64 : Nat) : Int)
  let v : Int := if lo < 2 ^ 63 then lo else lo - 2 ^ 64
  if x < 0 then (if v = -(2 ^ 63) then v else -v) else v

/-- The digits that the verb `%X` of `fmt.Sprintf` prints for a natural
number: hexadecimal, upper case, no leading zeros. -/
def hexUpper (n : Nat) : String := String.mk ((Nat.toDigits 16 n).map Char.toUpper)

/-- The verb `%X` of `fmt.Sprintf` for an `int` and for a `*big.Int`: a minus
sign for a negative number, then the digits of the magnitude. -/
def formatX (n : Int) : String :=
  if n < 0 then "-" ++ hexUpper n.natAbs else hexUpper n.natAbs

/-- The Go method `InstructionPointer.String`; `none` is a run-time fault
(`Get()` out of range, or `Annotations.Get` on a stored nil interface). The
type switch looks at the `Expression` fact of the instruction: the text of a
`*JumpLabel` is what `%v` prints for it. -/
def InstructionPointer.String (T : OpcodeTable) (prog : Program) (instr : InstructionPointer) :
    Option String :=
  match instr.Get prog with
  | none => none
  | some inst =>
    match inst.Annotations.Get? .expression with
    | none => none
    | some expression =>
      match (expression : Option Expression) with
      | some (.instruction op arg) =>
        if T.IsPush op then some ("0x" ++ formatX arg)
        else (instr.GetAddress T prog).map (fun address => "@0x" ++ formatX address)
      | some (.jumpLabel text) => some text
      | _ => (instr.GetAddress T prog).map (fun address => "@0x" ++ formatX address)

/-! ## The persistent abstract stack (package `stack`) -/

/-- Modelled from the spec: the abstract stack is a persistent list of
abstract values, top first; every value is an instruction pointer. -/
abbrev StackFrame := List InstructionPointer

namespace stack

/-- Modelled from the spec: `Height()` is the number of elements. -/
def Height (s : StackFrame) : Nat := s.length

/-- Modelled from the spec: `Value()` is the top value, and fails on an empty
stack. -/
def Value (s : StackFrame) : Option InstructionPointer := s.head?

/-- Modelled from the spec: `UpBy(n)` is the stack view `n` levels below the
top, without removing any frame. -/
def UpBy (s : StackFrame) (n : Nat) : StackFrame := s.drop n

/-- Modelled from the spec: `NewFrame(value)` is a new stack with the value
pushed. -/
def NewFrame (s : StackFrame) (value : InstructionPointer) : StackFrame := value :: s

/-- Modelled from the spec: `Popn(n)` returns the top `n` values in read
order, top first, and the stack with those frames removed; it fails when the
stack is lower than `n`. -/
def Popn (s : StackFrame) (n : Nat) : Option (List InstructionPointer × StackFrame) :=
  if n ≤ s.length then some (s.take n, s.drop n) else none

/-- Modelled from the spec: `Swap(n)` is a new stack with the top element and
the element at depth `n` exchanged; it fails when there is no depth `n`. -/
def Swap (s : StackFrame) (n : Nat) : Option StackFrame :=
  match s.head?, s[n]? with
  | some top, some deep => some ((s.set n top).set 0 deep)
  | _, _ => none

end stack

/-! ## Recording facts -/

/-- The merging loop of `updateBlockReachings`: depth `i` of the stored
definition receives the value of the frame `i` levels below the top. The loop
stops at a depth the stored definition does not have (the `break`), and when
the frames are exhausted (`i` has reached `stack.Height()`). -/
def mergeEntry : List InstructionPointerSet → StackFrame → List InstructionPointerSet
  | [], _ => []
  | rs, [] => rs
  | r :: rs, value :: frame => r.add value :: mergeEntry rs frame

/-- The Go function `updateBlockReachings`. -/
def updateBlockReachings (block : BasicBlock) (st : StackFrame) : BasicBlock :=
  let stored : ReachingDefinition := block.Annotations.Get .reaching
  let fresh : List InstructionPointerSet :=
    match stored with
    | none => List.replicate (stack.Height st) InstructionPointerSet.empty
    | some r => r
  let merged := mergeEntry fresh st
  let reachings :=
    if stack.Height st < merged.length then merged.take (stack.Height st) else merged
  { block with Annotations := block.Annotations.Set .reaching (some reachings) }

/-- The loop of `updateReachings`: `reachings[i][operand] = true` for every
operand, a fault when the stored definition has no index `i`. -/
def recordOperands :
    List InstructionPointerSet → List InstructionPointer → Option (List InstructionPointerSet)
  | rs, [] => some rs
  | [], _ :: _ => none
  | r :: rs, operand :: operands =>
    match recordOperands rs operands with
    | none => none
    | some rs' => some (r.add operand :: rs')

/-- The Go function `updateReachings`; `none` is the index-out-of-range
fault. -/
def updateReachings (inst : Instruction) (operands : List InstructionPointer) :
    Option Instruction :=
  let stored : ReachingDefinition := inst.Annotations.Get .reaching
  let fresh : List InstructionPointerSet :=
    match stored with
    | none => List.replicate operands.length InstructionPointerSet.empty
    | some r => r
  match recordOperands fresh operands with
  | none => none
  | some reachings =>
    some { inst with Annotations := inst.Annotations.Set .reaching (some reachings) }

/-! ## The symbolic step function -/

/-- The case that the `switch true` of `Advance` selects: the first one whose
condition holds. -/
inductive OpClass where
  | terminator
  | push
  | dup
  | swap
  | jump
  | jumpi
  | other
deriving DecidableEq, Repr

/-- The order of the cases of the `switch true` in `Advance`. -/
def classify (T : OpcodeTable) (op : OpCode) : OpClass :=
  if op = T.STOP ∨ op = T.RETURN ∨ op = T.INVALID ∨ op = T.REVERT ∨ op = T.SELFDESTRUCT then
    .terminator
  else if T.IsPush op then .push
  else if T.IsDup op then .dup
  else if T.IsSwap op then .swap
  else if op = T.JUMP then .jump
  else if op = T.JUMPI then .jumpi
  else .other

/-- The Go struct `reachingState`. Its `program` field points to the one
shared program, which the functions below take and return explicitly. -/
structure reachingState where
  nextBlock : Nat
  stack : StackFrame
deriving DecidableEq, Repr

/-- The two errors that `Advance` builds with `fmt.Errorf`, with the values
that are formatted into the message. -/
inductive AdvanceError where
  | unresolvedJump (pc : Int) (source : Int)
  | unexpectedWrites (op : OpCode) (writes : Nat)
deriving DecidableEq, Repr

/-- How a call of `Advance` ends: a run-time fault, `return nil, err`, or
`return states, nil`. -/
inductive Outcome where
  | panic
  | error (e : AdvanceError)
  | ok (states : List reachingState)
deriving DecidableEq, Repr

/-- The successor states a call hands to its caller. -/
def Outcome.states : Outcome → List reachingState
  | .ok states => states
  | _ => []

/-- The variables `pc` and `st` of the loop of `Advance` at the head of an
iteration. -/
structure Walk where
  pc : Int
  st : StackFrame
deriving DecidableEq, Repr

/-- The variables of `Advance` at its `switch`: `pc`, `st`, the opcode, and
the operands and the stack that `stack.Popn` returned. -/
structure Operands where
  pc : Int
  st : StackFrame
  op : OpCode
  operands : List InstructionPointer
  newStack : StackFrame
deriving DecidableEq, Repr

/-- The effect of one iteration on the program and the loop variables: the
loop goes on, or `Advance` is left. -/
inductive Step where
  | cont (prog : Program) (w : Walk)
  | stop (prog : Program) (out : Outcome)

/-- The program after the step. -/
def Step.prog : Step → Program
  | .cont prog _ => prog
  | .stop prog _ => prog

/-- The fallthrough successor `Next` of block `b`. -/
def Program.next (prog : Program) (b : Nat) : Option Nat :=
  match prog.block b with
  | none => none
  | some blk => blk.Next

/-- The head of an iteration of `Advance`, up to the `switch`: the operands
are popped and `updateReachings` records them on instruction `i` of block
`b`. -/
def fetch (T : OpcodeTable) (b i : Nat) (prog : Program) (w : Walk) :
    Option (Program × Operands) :=
  match InstructionPointer.Get prog ⟨b, i⟩ with
  | none => none
  | some inst =>
    match stack.Popn w.st (T.StackReads inst.Op) with
    | none => none
    | some (operands, newStack) =>
      match updateReachings inst operands with
      | none => none
      | some inst' =>
        some (prog.setInst ⟨b, i⟩ inst', ⟨w.pc, w.st, inst.Op, operands, newStack⟩)

/-- The end of an iteration of `Advance`, after the `switch`: the height check
on `st`, then `pc` and `st` are updated; `pc += op.OperandSize() + 1` is `int`
arithmetic. -/
def proceed (T : OpcodeTable) (prog : Program) (c : Operands) (newStack : StackFrame) : Step :=
  if stack.Height c.st > 1024 then .stop prog (.ok [])
  else .cont prog ⟨wrapInt (c.pc + wrapInt (T.OperandSize c.op + 1)), newStack⟩

/-- The cases `op == JUMP` and `op == JUMPI` up to the lookup of the
destination: `resolved dest` gives the result for the outcome `dest` of the
lookup in `JumpDestinations`. The key of the lookup is
`int(operands[0].Get().Arg.Int64())`, where `int` has 64 bits. -/
def resolve (T : OpcodeTable) (prog : Program) (c : Operands)
    (resolved : Option Nat → List reachingState) : Step :=
  match c.operands.head? with
  | none => .stop prog .panic
  | some target =>
    match target.Get prog with
    | none => .stop prog .panic
    | some source =>
      if !T.IsPush source.Op then
        match target.GetAddress T prog with
        | none => .stop prog .panic
        | some address => .stop prog (.error (.unresolvedJump c.pc address))
      else .stop prog (.ok (resolved (prog.JumpDestinations (Int64 source.Arg))))

/-- The successor states of the case `op == JUMP`. -/
def jumpStates (c : Operands) : Option Nat → List reachingState
  | some dest => [⟨dest, c.newStack⟩]
  | none => []

/-- The successor states of the case `op == JUMPI`, in a block whose
fallthrough successor is `next`. -/
def jumpiStates (c : Operands) (next : Option Nat) (dest : Option Nat) : List reachingState :=
  (match dest with
    | some d => [⟨d, c.newStack⟩]
    | none => []) ++
  (match next with
    | some n => [⟨n, c.newStack⟩]
    | none => [])

/-- The `switch` of `Advance` for instruction `i` of block `b`, and the rest
of the iteration. The depth `op.StackReads()-1` of the dup and swap cases is
taken as 0 for an opcode that reads nothing. -/
def dispatch (T : OpcodeTable) (b i : Nat) (prog : Program) (c : Operands) : Step :=
  match classify T c.op with
  | .terminator => .stop prog (.ok [])
  | .push => proceed T prog c (stack.NewFrame c.newStack ⟨b, i⟩)
  | .dup =>
    match stack.Value (stack.UpBy c.st (T.StackReads c.op - 1)) with
    | none => .stop prog .panic
    | some value => proceed T prog c (stack.NewFrame c.st value)
  | .swap =>
    match stack.Swap c.st (T.StackReads c.op - 1) with
    | none => .stop prog .panic
    | some swapped => proceed T prog c swapped
  | .jump => resolve T prog c (jumpStates c)
  | .jumpi => resolve T prog c (jumpiStates c (prog.next b))
  | .other =>
    if T.StackWrites c.op = 1 then proceed T prog c (stack.NewFrame c.newStack ⟨b, i⟩)
    else if T.StackWrites c.op > 1 then
      .stop prog (.error (.unexpectedWrites c.op (T.StackWrites c.op)))
    else proceed T prog c c.newStack

/-- One iteration of the loop of `Advance`, for instruction `i` of block
`b`. -/
def body (T : OpcodeTable) (b i : Nat) (prog : Program) (w : Walk) : Step :=
  match fetch T b i prog w with
  | none => .stop prog .panic
  | some (prog', c) => dispatch T b i prog' c

/-- The loop of `Advance` with `n` instructions left, from index `i` on, and
the code after the loop. -/
def loop (T : OpcodeTable) (b : Nat) : Nat → Nat → Program → Walk → Program × Outcome
  | 0, _, prog, w =>
    match prog.next b with
    | some n => (prog, .ok [⟨n, w.st⟩])
    | none => (prog, .ok [])
  | n + 1, i, prog, w =>
    match body T b i prog w with
    | .cont prog' w' => loop T b n (i + 1) prog' w'
    | .stop prog' out => (prog', out)

/-- The program and the loop variables of `Advance` on entry to its loop:
`updateBlockReachings` has run, `pc` is the `int` `Offset` of the block and
`st` the stack of the state. -/
def entry (prog : Program) (instr : reachingState) : Option (Program × Walk) :=
  match prog.block instr.nextBlock with
  | none => none
  | some blk =>
    some (prog.setBlockAnnotations instr.nextBlock
            (updateBlockReachings blk instr.stack).Annotations,
          ⟨wrapInt blk.Offset, instr.stack⟩)

/-- The number of instructions of block `b`. -/
def Program.size (prog : Program) (b : Nat) : Nat :=
  match prog.block b with
  | none => 0
  | some blk => blk.Instructions.length

/-- The Go method `reachingState.Advance`: the program with the facts
recorded, and the outcome. -/
def Advance (T : OpcodeTable) (prog : Program) (instr : reachingState) : Program × Outcome :=
  match entry prog instr with
  | none => (prog, .panic)
  | some (prog', w) => loop T instr.nextBlock (prog.size instr.nextBlock) 0 prog' w

/-- The program and the loop variables after `k` more iterations, when the
walk that is at index `i` gets that far. -/
def walkFrom (T : OpcodeTable) (b : Nat) : Nat → Nat → Program → Walk → Option (Program × Walk)
  | 0, _, prog, w => some (prog, w)
  | k + 1, i, prog, w =>
    match body T b i prog w with
    | .cont prog' w' => walkFrom T b k (i + 1) prog' w'
    | .stop _ _ => none

/-- The program and the loop variables with which `Advance` reaches the head
of iteration `j`. -/
def reached (T : OpcodeTable) (prog : Program) (instr : reachingState) (j : Nat) :
    Option (Program × Walk) :=
  match entry prog instr with
  | none => none
  | some (prog', w) => walkFrom T instr.nextBlock j 0 prog' w

/-- The loop variables with which `Advance` reaches the head of iteration `j`:
`st` is the running stack just before instruction `j`. -/
def walkAt (T : OpcodeTable) (prog : Program) (instr : reachingState) (j : Nat) : Option Walk :=
  (reached T prog instr j).map Prod.snd

/-- The program and the variables with which `Advance` reaches the `switch`
for instruction `j`. -/
def reachedSwitch (T : OpcodeTable) (prog : Program) (instr : reachingState) (j : Nat) :
    Option (Program × Operands) :=
  match reached T prog instr j with
  | none => none
  | some (prog', w) => fetch T instr.nextBlock j prog' w

/-- The variables with which `Advance` reaches the `switch` for instruction
`j`. -/
def switchAt (T : OpcodeTable) (prog : Program) (instr : reachingState) (j : Nat) :
    Option Operands :=
  (reachedSwitch T prog instr j).map Prod.snd

/-- The opcode of the instruction that `p` denotes. -/
def opOf (prog : Program) (p : InstructionPointer) : Option OpCode :=
  (p.Get prog).map (fun inst => inst.Op)

/-- The Reaching Definition stored on the instruction that `p` denotes. -/
def reachingOf (prog : Program) (p : InstructionPointer) : ReachingDefinition :=
  match p.Get prog with
  | none => none
  | some inst => inst.Annotations.Get .reaching

/-! ## The reaches relation -/

/-- The innermost statement of `PerformReachesAnalysis`: `ptr` is appended to
the Reaches Definition of the instruction that `pointer` denotes. -/
def appendReaches (ptr : InstructionPointer) (prog : Program) (pointer : InstructionPointer) :
    Option Program :=
  match pointer.Get prog with
  | none => none
  | some inst =>
    let reaches : ReachesDefinition := inst.Annotations.Get .reaches
    some (prog.setInst pointer
      { inst with Annotations := inst.Annotations.Set .reaches (reaches ++ [ptr]) })

/-- The loop `for pointer := range pointers`. -/
def reachesOfSet (ptr : InstructionPointer) (prog : Program) (pointers : InstructionPointerSet) :
    Option Program :=
  pointers.keys.foldlM (appendReaches ptr) prog

/-- The body of the loop over the instructions of block `b`, for
instruction `i`. -/
def reachesOfInst (T : OpcodeTable) (b : Nat) (prog : Program) (i : Nat) : Option Program :=
  match InstructionPointer.Get prog ⟨b, i⟩ with
  | none => none
  | some inst =>
    if T.IsSwap inst.Op || T.IsDup inst.Op then some prog
    else
      match (inst.Annotations.Get .reaching : ReachingDefinition) with
      | none => some prog
      | some reaching => reaching.foldlM (reachesOfSet ⟨b, i⟩) prog

/-- The body of the loop over the blocks, for block `b`. -/
def reachesOfBlock (T : OpcodeTable) (prog : Program) (b : Nat) : Option Program :=
  (List.range (prog.size b)).foldlM (reachesOfInst T b) prog

/-- The Go function `PerformReachesAnalysis`; `none` when a pointer in a
Reaching Definition denotes no instruction (`pointer.Get()` faults). -/
def PerformReachesAnalysis (T : OpcodeTable) (prog : Program) : Option Program :=
  (List.range prog.Blocks.length).foldlM (reachesOfBlock T) prog

/-- The Reaches Definition stored on the instruction that `p` denotes. -/
def reachesOf (prog : Program) (p : InstructionPointer) : ReachesDefinition :=
  match p.Get prog with
  | none => []
  | some inst => inst.Annotations.Get .reaches

/-- The program after the calls of `Advance` on the states of `states`, one
after the other. -/
def advanceAll (T : OpcodeTable) (prog : Program) (states : List reachingState) : Program :=
  states.foldl (fun p s => (Advance T p s).1) prog

/-! ## Readings of the recorded facts -/

/-- The block-entry Reaching Definition that a block stores. -/
def BasicBlock.entryReaching (blk : BasicBlock) : ReachingDefinition :=
  blk.Annotations.Get .reaching

/-- The number of operand positions of the Reaching Definition `r` whose set
contains `p`. -/
def positionsWith (r : List InstructionPointerSet) (p : InstructionPointer) : Nat :=
  r.countP (fun s => decide (p ∈ s.keys))

/-- The number of operand positions in which the instruction `q` consumes the
value of `p`: 0 when `q` denotes no instruction, is a swap or a dup, or stores
no Reaching Definition. -/
def consumed (T : OpcodeTable) (prog : Program) (q p : InstructionPointer) : Nat :=
  match q.Get prog with
  | none => 0
  | some inst =>
    if T.IsSwap inst.Op || T.IsDup inst.Op then 0
    else
      match (inst.Annotations.Get .reaching : ReachingDefinition) with
      | none => 0
      | some r => positionsWith r p

/-! ## A concrete opcode table and programs for the examples -/

/-- The EVM encodings of the opcodes that the examples use: STOP 0x00,
ADD 0x01, POP 0x50, JUMP 0x56, JUMPI 0x57, JUMPDEST 0x5b, PUSH1..PUSH32
0x60..0x7f, DUP1..DUP16 0x80..0x8f, SWAP1..SWAP16 0x90..0x9f, RETURN 0xf3,
REVERT 0xfd, INVALID 0xfe, SELFDESTRUCT 0xff. -/
def evm : OpcodeTable where
  STOP := 0x00
  RETURN := 0xf3
  INVALID := 0xfe
  REVERT := 0xfd
  SELFDESTRUCT := 0xff
  JUMP := 0x56
  JUMPI := 0x57
  IsPush op := decide (0x60 ≤ op ∧ op ≤ 0x7f)
  IsDup op := decide (0x80 ≤ op ∧ op ≤ 0x8f)
  IsSwap op := decide (0x90 ≤ op ∧ op ≤ 0x9f)
  StackReads op :=
    if 0x80 ≤ op ∧ op ≤ 0x8f then op - 0x7f
    else if 0x90 ≤ op ∧ op ≤ 0x9f then op - 0x8e
    else if op = 0x01 then 2
    else if op = 0x50 then 1
    else if op = 0x56 then 1
    else if op = 0x57 then 2
    else if op = 0xf3 then 2
    else if op = 0xfd then 2
    else if op = 0xff then 1
    else 0
  StackWrites op :=
    if 0x60 ≤ op ∧ op ≤ 0x7f then 1
    else if 0x80 ≤ op ∧ op ≤ 0x8f then op - 0x7e
    else if 0x90 ≤ op ∧ op ≤ 0x9f then op - 0x8e
    else if op = 0x01 then 1
    else 0
  OperandSize op := if 0x60 ≤ op ∧ op ≤ 0x7f then (op : Int) - 0x5f else 0

/-- An instruction with an empty fact store. -/
def mkInst (op : OpCode) (arg : Int) : Instruction := ⟨op, arg, NewTypeMap⟩

/-- A block with an empty fact store. -/
def mkBlock (offset : Int) (insts : List Instruction) (next : Option Nat) : BasicBlock :=
  ⟨offset, insts, next, NewTypeMap⟩

/-- The straight-line block `PUSH1 0x5; PUSH1 0x3; ADD`. -/
def progAdd : Program :=
  ⟨[mkBlock 0 [mkInst 0x60 5, mkInst 0x60 3, mkInst 0x01 0] none], fun _ => none⟩

/-- The block `PUSH1 0; PUSH1 7; JUMPI` at offset 0 with the fallthrough
successor 2 (at offset 5); address 7 is the known destination of block 1. -/
def progJumpi : Program :=
  ⟨[mkBlock 0 [mkInst 0x60 0, mkInst 0x60 7, mkInst 0x57 0] (some 2),
    mkBlock 7 [mkInst 0x5b 0, mkInst 0x00 0] none,
    mkBlock 5 [mkInst 0x5b 0, mkInst 0x00 0] none],
   fun a => if a = 7 then some 1 else none⟩

/-- The block `PUSH1 1; PUSH1 2; ADD; JUMP` at offset 0: the jump target is
the result of the ADD at address 4, the JUMP is at address 5. -/
def progComputedJump : Program :=
  ⟨[mkBlock 0 [mkInst 0x60 1, mkInst 0x60 2, mkInst 0x01 0, mkInst 0x56 0] none],
   fun _ => none⟩

/-- The block `PUSH1 1; STOP` with the fallthrough successor 1. -/
def progHalt : Program :=
  ⟨[mkBlock 0 [mkInst 0x60 1, mkInst 0x00 0] (some 1), mkBlock 3 [mkInst 0x00 0] none],
   fun _ => none⟩

/-- The block `PUSH1 0` with the fallthrough successor 1. -/
def progPush : Program :=
  ⟨[mkBlock 0 [mkInst 0x60 0] (some 1), mkBlock 2 [mkInst 0x5b 0, mkInst 0x00 0] none],
   fun _ => none⟩

/-- A stack of height 1024. -/
def fullStack : StackFrame := List.replicate 1024 ⟨1, 0⟩

/-- The block `PUSH9 0x010000000000000000b; JUMP` at offset 0, whose immediate
is `2 ^ 64 + 11`, and the block `JUMPDEST; STOP` at offset 11, the only known
jump destination. -/
def progWideJump : Program :=
  ⟨[mkBlock 0 [mkInst 0x68 (2 ^ 64 + 11), mkInst 0x56 0] none,
    mkBlock 11 [mkInst 0x5b 0, mkInst 0x00 0] none],
   fun a => if a = 11 then some 1 else none⟩

/-- The block `PUSH1 5; DUP1`, and the program after `Advance` has recorded its
Reaching Definitions. -/
def progDup : Program :=
  (Advance evm ⟨[mkBlock 0 [mkInst 0x60 5, mkInst 0x80 0] none], fun _ => none⟩ ⟨0, []⟩).1

/-- The program `progAdd` after `Advance` has recorded its Reaching
Definitions. -/
def progAddReached : Program := (Advance evm progAdd ⟨0, []⟩).1

/-- The raw block `PUSH1 5; DUP1`. -/
def progDupCode : Program :=
  ⟨[mkBlock 0 [mkInst 0x60 5, mkInst 0x80 0] none], fun _ => none⟩

/-- The block `SWAP1`. -/
def progSwap : Program :=
  ⟨[mkBlock 0 [mkInst 0x90 0] none], fun _ => none⟩

/-- The block `PUSH1 3; JUMP` at offset 0 and the block `JUMPDEST; STOP` at
offset 3, the known jump destination 3. -/
def progPushJump : Program :=
  ⟨[mkBlock 0 [mkInst 0x60 3, mkInst 0x56 0] none,
    mkBlock 3 [mkInst 0x5b 0, mkInst 0x00 0] none],
   fun a => if a = 3 then some 1 else none⟩

/-- The block `PUSH1 0xFF; JUMPDEST; ADD` at offset 16 in which the expression
pass has stored an instruction expression on the PUSH1 and a jump label on the
JUMPDEST. -/
def progExpr : Program :=
  ⟨[⟨16,
      [⟨0x60, 255, NewTypeMap.Set .expression (some (Expression.instruction 0x60 255))⟩,
       ⟨0x5b, 0, NewTypeMap.Set .expression (some (Expression.jumpLabel "loop"))⟩,
       mkInst 0x01 0],
      none, NewTypeMap⟩],
   fun _ => none⟩

/-- The block `PUSH1 1; PUSH1 2; ADD; DUP1; SWAP1` with the fallthrough
successor 1. -/
def progSum : Program :=
  ⟨[mkBlock 0 [mkInst 0x60 1, mkInst 0x60 2, mkInst 0x01 0, mkInst 0x80 0, mkInst 0x90 0]
      (some 1),
    mkBlock 7 [mkInst 0x00 0] none],
   fun _ => none⟩

/-- The block `JUMPDEST; JUMP` at offset `2 ^ 63 - 1`, the last address an
`int` holds. -/
def progLastAddress : Program :=
  ⟨[mkBlock (2 ^ 63 - 1) [mkInst 0x5b 0, mkInst 0x56 0] none], fun _ => none⟩

/-! ## Notions used in the proofs -/

/-- The part of an instruction that the analysis never writes. -/
def Instruction.code (inst : Instruction) : OpCode × Int := (inst.Op, inst.Arg)

/-- The part of a block that the analysis never writes. -/
def BasicBlock.code (blk : BasicBlock) : Int × List (OpCode × Int) × Option Nat :=
  (blk.Offset, blk.Instructions.map Instruction.code, blk.Next)

/-- Two programs that differ in their fact stores only. -/
def SameCode (prog prog' : Program) : Prop :=
  prog'.JumpDestinations = prog.JumpDestinations ∧
  ∀ b, (prog'.block b).map BasicBlock.code = (prog.block b).map BasicBlock.code

/-- Two programs with the same code and the same Reaching Definitions. -/
def SameFacts (prog prog' : Program) : Prop :=
  SameCode prog prog' ∧ ∀ q, reachingOf prog' q = reachingOf prog q

/-- Every Reaching Definition stored on an instruction has as many entries as
the instruction reads. -/
def FactsFit (T : OpcodeTable) (prog : Program) : Prop :=
  ∀ p inst r, InstructionPointer.Get prog p = some inst →
    (inst.Annotations.Get .reaching : ReachingDefinition) = some r →
    r.length = T.StackReads inst.Op

/-- No set of a Reaching Definition of `prog` has lost an element in
`prog'`. -/
def Grows (prog prog' : Program) : Prop :=
  ∀ (p : InstructionPointer) (r : List InstructionPointerSet) (k : Nat)
    (s : InstructionPointerSet) (x : InstructionPointer),
    reachingOf prog p = some r → r[k]? = some s → x ∈ s.keys →
    ∃ (r' : List InstructionPointerSet) (s' : InstructionPointerSet),
      reachingOf prog' p = some r' ∧ r'[k]? = some s' ∧ x ∈ s'.keys

/-! # Theorems -/

/-! ## Program updates -/

theorem block_setInst (prog : Program) (p : InstructionPointer) (inst : Instruction) (b : Nat) :
    (prog.setInst p inst).block b =
      (prog.block b).map (fun blk =>
        if p.OriginBlock = b then
          { blk with Instructions := blk.Instructions.set p.OriginIndex inst }
        else blk) := by
  simp [Program.block, Program.setInst, List.getElem?_modify]

theorem block_setBlockAnnotations (prog : Program) (b : Nat) (a : TypeMap) (b' : Nat) :
    (prog.setBlockAnnotations b a).block b' =
      (prog.block b').map (fun blk => if b = b' then { blk with Annotations := a } else blk) := by
  simp [Program.block, Program.setBlockAnnotations, List.getElem?_modify]

theorem Get_setInst (prog : Program) (p : InstructionPointer) (inst : Instruction)
    (q : InstructionPointer) :
    q.Get (prog.setInst p inst) = if q = p then (q.Get prog).map (fun _ => inst) else q.Get prog := by
  unfold InstructionPointer.Get
  rw [block_setInst]
  cases hb : prog.block q.OriginBlock with
  | none => simp
  | some blk =>
    by_cases hqp : q = p
    · subst hqp
      simp [List.getElem?_set]
      cases h : blk.Instructions[q.OriginIndex]? with
      | none =>
        have := List.getElem?_eq_none_iff.mp h
        simp; omega
      | some x =>
        have := (List.getElem?_eq_some_iff.mp h).1
        simp [this]
    · simp only [Option.map_some', hqp, if_false]
      by_cases h1 : p.OriginBlock = q.OriginBlock
      · have h2 : p.OriginIndex ≠ q.OriginIndex := by
          intro h2
          apply hqp
          cases p; cases q; simp_all
        simp [h1, List.getElem?_set_ne h2]
      · simp [h1]

theorem Get_setBlockAnnotations (prog : Program) (b : Nat) (a : TypeMap)
    (q : InstructionPointer) :
    q.Get (prog.setBlockAnnotations b a) = q.Get prog := by
  unfold InstructionPointer.Get
  rw [block_setBlockAnnotations]
  cases hb : prog.block q.OriginBlock with
  | none => simp
  | some blk => by_cases h : b = q.OriginBlock <;> simp [h]

/-! ## Programs that differ in their facts only -/

theorem SameCode.refl (prog : Program) : SameCode prog prog := ⟨rfl, fun _ => rfl⟩

theorem SameCode.trans {p1 p2 p3 : Program} (h12 : SameCode p1 p2) (h23 : SameCode p2 p3) :
    SameCode p1 p3 :=
  ⟨h23.1.trans h12.1, fun b => (h23.2 b).trans (h12.2 b)⟩

theorem SameCode.symm {p1 p2 : Program} (h : SameCode p1 p2) : SameCode p2 p1 :=
  ⟨h.1.symm, fun b => (h.2 b).symm⟩

theorem SameCode.size {prog prog' : Program} (h : SameCode prog prog') (b : Nat) :
    prog'.size b = prog.size b := by
  have hb := h.2 b
  unfold Program.size
  cases h1 : prog.block b <;> cases h2 : prog'.block b <;> simp [h1, h2, BasicBlock.code] at hb ⊢
  have := congrArg List.length hb.2.1
  simpa using this

theorem SameCode.next {prog prog' : Program} (h : SameCode prog prog') (b : Nat) :
    prog'.next b = prog.next b := by
  have hb := h.2 b
  unfold Program.next
  cases h1 : prog.block b <;> cases h2 : prog'.block b <;> simp [h1, h2, BasicBlock.code] at hb ⊢
  exact hb.2.2

theorem SameCode.Get {prog prog' : Program} (h : SameCode prog prog') (q : InstructionPointer) :
    (q.Get prog').map Instruction.code = (q.Get prog).map Instruction.code := by
  have hb := h.2 q.OriginBlock
  unfold InstructionPointer.Get
  cases h1 : prog.block q.OriginBlock <;> cases h2 : prog'.block q.OriginBlock <;>
    simp [h1, h2, BasicBlock.code] at hb ⊢
  have := congrArg (fun l => l[q.OriginIndex]?) hb.2.1
  simpa [List.getElem?_map] using this

theorem SameCode.Get_some {prog prog' : Program} (h : SameCode prog prog')
    {q : InstructionPointer} {inst : Instruction} (hq : q.Get prog = some inst) :
    ∃ inst', q.Get prog' = some inst' ∧ inst'.Op = inst.Op ∧ inst'.Arg = inst.Arg := by
  have := h.Get q
  rw [hq] at this
  cases h' : q.Get prog' with
  | none => simp [h'] at this
  | some inst' =>
    simp [h', Instruction.code] at this
    exact ⟨inst', rfl, this.1, this.2⟩

theorem wrapInt_add (a b : Int) : wrapInt (wrapInt a + wrapInt b) = wrapInt (a + b) := by
  unfold wrapInt
  omega

theorem wrapInt_of_range {x : Int} (hlo : -(2 ^ 63) ≤ x) (hhi : x < 2 ^ 63) : wrapInt x = x := by
  unfold wrapInt
  omega

theorem wrapInt_range (x : Int) : -(2 ^ 63) ≤ wrapInt x ∧ wrapInt x < 2 ^ 63 := by
  unfold wrapInt
  omega

theorem foldl_address (T : OpcodeTable) (l : List Instruction) (o : Int) :
    l.foldl (fun address inst => wrapInt (address + wrapInt (T.OperandSize inst.Op + 1)))
        (wrapInt o) =
      wrapInt (o + (l.map (fun inst => T.OperandSize inst.Op + 1)).sum) := by
  induction l generalizing o with
  | nil => simp
  | cons x xs ih =>
    simp only [List.foldl_cons, List.map_cons, List.sum_cons]
    rw [wrapInt_add, ih, add_assoc]

theorem SameCode.GetAddress (T : OpcodeTable) {prog prog' : Program} (h : SameCode prog prog')
    (q : InstructionPointer) : q.GetAddress T prog' = q.GetAddress T prog := by
  have hb := h.2 q.OriginBlock
  unfold InstructionPointer.GetAddress
  cases h1 : prog.block q.OriginBlock <;> cases h2 : prog'.block q.OriginBlock <;>
    simp [h1, h2, BasicBlock.code] at hb ⊢
  rename_i blk blk'
  have hlen : blk'.Instructions.length = blk.Instructions.length := by
    simpa using congrArg List.length hb.2.1
  have hsum : ∀ n, ((blk'.Instructions.take n).map (fun inst => T.OperandSize inst.Op + 1)) =
      ((blk.Instructions.take n).map (fun inst => T.OperandSize inst.Op + 1)) := by
    intro n
    have := congrArg (fun l => (l.take n).map (fun c : OpCode × Int => T.OperandSize c.1 + 1)) hb.2.1
    simpa [List.map_take, Instruction.code, Function.comp_def] using this
  simp only [foldl_address, hlen, hsum, hb.1]

theorem SameCode.setInst {prog : Program} {p : InstructionPointer} {old inst : Instruction}
    (hold : p.Get prog = some old) (hop : inst.Op = old.Op) (harg : inst.Arg = old.Arg) :
    SameCode prog (prog.setInst p inst) := by
  refine ⟨rfl, fun b => ?_⟩
  rw [block_setInst]
  cases hb : prog.block b with
  | none => simp
  | some blk =>
    by_cases hpb : p.OriginBlock = b
    · subst hpb
      simp only [Option.map_some', if_true, BasicBlock.code]
      unfold InstructionPointer.Get at hold
      rw [hb] at hold
      simp only at hold
      have hlt := (List.getElem?_eq_some_iff.mp hold).1
      have hget := (List.getElem?_eq_some_iff.mp hold).2
      have hmap : List.map Instruction.code (blk.Instructions.set p.OriginIndex inst) =
          List.map Instruction.code blk.Instructions := by
        apply List.ext_getElem?
        intro n
        simp only [List.getElem?_map, List.getElem?_set]
        by_cases hn : p.OriginIndex = n
        · subst hn
          simp [hlt, hold, Instruction.code, hop, harg]
        · simp [hn]
      rw [hmap]
    · simp [hpb]

theorem SameCode.setBlockAnnotations (prog : Program) (b : Nat) (a : TypeMap) :
    SameCode prog (prog.setBlockAnnotations b a) := by
  refine ⟨rfl, fun b' => ?_⟩
  rw [block_setBlockAnnotations]
  cases hb : prog.block b' with
  | none => simp
  | some blk => by_cases h : b = b' <;> simp [h, BasicBlock.code]

/-! ## One iteration of the walk -/

theorem updateReachings_code {inst inst' : Instruction} {operands : List InstructionPointer}
    (h : updateReachings inst operands = some inst') :
    inst'.Op = inst.Op ∧ inst'.Arg = inst.Arg := by
  unfold updateReachings at h
  simp only at h
  split at h
  · exact absurd h (by simp)
  · cases h
    exact ⟨rfl, rfl⟩

theorem Get_lt_size {prog : Program} {b i : Nat} {inst : Instruction}
    (h : InstructionPointer.Get prog ⟨b, i⟩ = some inst) : i < prog.size b := by
  unfold InstructionPointer.Get at h
  unfold Program.size
  cases hb : prog.block b with
  | none => simp [hb] at h
  | some blk =>
    simp only [hb] at h ⊢
    exact (List.getElem?_eq_some_iff.mp h).1

theorem fetch_spec {T : OpcodeTable} {b i : Nat} {prog prog' : Program} {w : Walk} {c : Operands}
    (h : fetch T b i prog w = some (prog', c)) :
    ∃ inst inst', InstructionPointer.Get prog ⟨b, i⟩ = some inst ∧
      updateReachings inst c.operands = some inst' ∧
      prog' = prog.setInst ⟨b, i⟩ inst' ∧
      c.pc = w.pc ∧ c.st = w.st ∧ c.op = inst.Op ∧
      T.StackReads c.op ≤ stack.Height w.st ∧
      c.operands = w.st.take (T.StackReads c.op) ∧
      c.newStack = w.st.drop (T.StackReads c.op) := by
  unfold fetch at h
  cases hg : InstructionPointer.Get prog ⟨b, i⟩ with
  | none => simp [hg] at h
  | some inst =>
    simp only [hg] at h
    cases hp : stack.Popn w.st (T.StackReads inst.Op) with
    | none => simp [hp] at h
    | some r =>
      obtain ⟨operands, newStack⟩ := r
      simp only [hp] at h
      cases hu : updateReachings inst operands with
      | none => simp [hu] at h
      | some inst' =>
        simp only [hu, Option.some.injEq, Prod.mk.injEq] at h
        obtain ⟨h1, h2⟩ := h
        subst h1 h2
        unfold stack.Popn at hp
        split at hp
        · rename_i hle
          simp only [Option.some.injEq, Prod.mk.injEq] at hp
          exact ⟨inst, inst', rfl, hu, rfl, rfl, rfl, rfl, hle, hp.1.symm, hp.2.symm⟩
        · exact absurd hp (by simp)

theorem fetch_SameCode {T : OpcodeTable} {b i : Nat} {prog prog' : Program} {w : Walk}
    {c : Operands} (h : fetch T b i prog w = some (prog', c)) : SameCode prog prog' := by
  obtain ⟨inst, inst', hg, hu, hp, -⟩ := fetch_spec h
  subst hp
  exact SameCode.setInst hg (updateReachings_code hu).1 (updateReachings_code hu).2

theorem proceed_prog (T : OpcodeTable) (prog : Program) (c : Operands) (s : StackFrame) :
    (proceed T prog c s).prog = prog := by
  unfold proceed
  split <;> rfl

theorem resolve_prog (T : OpcodeTable) (prog : Program) (c : Operands)
    (f : Option Nat → List reachingState) : (resolve T prog c f).prog = prog := by
  unfold resolve
  repeat' split
  all_goals rfl

theorem dispatch_prog (T : OpcodeTable) (b i : Nat) (prog : Program) (c : Operands) :
    (dispatch T b i prog c).prog = prog := by
  unfold dispatch
  repeat' split
  all_goals first | rfl | exact proceed_prog _ _ _ _ | exact resolve_prog _ _ _ _

theorem body_SameCode (T : OpcodeTable) (b i : Nat) (prog : Program) (w : Walk) :
    SameCode prog (body T b i prog w).prog := by
  unfold body
  cases h : fetch T b i prog w with
  | none => exact SameCode.refl _
  | some r =>
    obtain ⟨prog', c⟩ := r
    simp only [dispatch_prog]
    exact fetch_SameCode h

theorem walkFrom_SameCode {T : OpcodeTable} {b : Nat} {k i : Nat} {prog prog' : Program}
    {w w' : Walk} (h : walkFrom T b k i prog w = some (prog', w')) : SameCode prog prog' := by
  induction k generalizing i prog w with
  | zero =>
    simp only [walkFrom, Option.some.injEq, Prod.mk.injEq] at h
    rw [← h.1]
    exact SameCode.refl _
  | succ k ih =>
    simp only [walkFrom] at h
    have hb := body_SameCode T b i prog w
    cases hs : body T b i prog w with
    | cont p1 w1 =>
      rw [hs] at h hb
      exact hb.trans (ih h)
    | stop p1 out =>
      rw [hs] at h
      exact absurd h (by simp)

theorem entry_SameCode {prog prog' : Program} {instr : reachingState} {w : Walk}
    (h : entry prog instr = some (prog', w)) : SameCode prog prog' := by
  unfold entry at h
  cases hb : prog.block instr.nextBlock with
  | none => simp [hb] at h
  | some blk =>
    simp only [hb, Option.some.injEq, Prod.mk.injEq] at h
    rw [← h.1]
    exact SameCode.setBlockAnnotations _ _ _

theorem reached_SameCode {T : OpcodeTable} {prog prog' : Program} {instr : reachingState}
    {j : Nat} {w : Walk} (h : reached T prog instr j = some (prog', w)) : SameCode prog prog' := by
  unfold reached at h
  cases he : entry prog instr with
  | none => simp [he] at h
  | some r =>
    obtain ⟨p0, w0⟩ := r
    simp only [he] at h
    exact (entry_SameCode he).trans (walkFrom_SameCode h)

theorem loop_walkFrom {T : OpcodeTable} {b : Nat} {k i : Nat} {prog prog' : Program}
    {w w' : Walk} (n : Nat) (h : walkFrom T b k i prog w = some (prog', w')) :
    loop T b (k + n) i prog w = loop T b n (i + k) prog' w' := by
  induction k generalizing i prog w with
  | zero =>
    simp only [walkFrom, Option.some.injEq, Prod.mk.injEq] at h
    rw [h.1, h.2]
    simp
  | succ k ih =>
    simp only [walkFrom] at h
    have hn : k + 1 + n = (k + n) + 1 := by omega
    rw [hn, loop]
    cases hs : body T b i prog w with
    | cont p1 w1 =>
      rw [hs] at h
      simp only
      rw [ih h]
      congr 1
      omega
    | stop p1 out =>
      rw [hs] at h
      exact absurd h (by simp)

theorem Advance_of_switch_stop {T : OpcodeTable} {prog prog' p : Program}
    {instr : reachingState} {j : Nat} {c : Operands} {out : Outcome}
    (h : reachedSwitch T prog instr j = some (prog', c))
    (hd : dispatch T instr.nextBlock j prog' c = .stop p out) :
    Advance T prog instr = (p, out) := by
  unfold reachedSwitch at h
  cases hr : reached T prog instr j with
  | none => simp [hr] at h
  | some r =>
    obtain ⟨p1, w1⟩ := r
    simp only [hr] at h
    have hsame := reached_SameCode hr
    obtain ⟨inst, -, hg, -⟩ := fetch_spec h
    have hlt : j < prog.size instr.nextBlock := by
      rw [← hsame.size]
      exact Get_lt_size hg
    unfold reached at hr
    unfold Advance
    cases he : entry prog instr with
    | none => simp [he] at hr
    | some r0 =>
      obtain ⟨p0, w0⟩ := r0
      simp only [he] at hr ⊢
      obtain ⟨n, hn⟩ : ∃ n, prog.size instr.nextBlock = j + (n + 1) :=
        ⟨prog.size instr.nextBlock - j - 1, by omega⟩
      rw [hn, loop_walkFrom (n + 1) hr, loop]
      simp only [body, Nat.zero_add, h, hd]

/-! ## Jumps -/

theorem Int64_of_int {a : Int} (hlo : -(2 ^ 63) ≤ a) (hhi : a < 2 ^ 63) : Int64 a = a := by
  unfold Int64
  simp only
  split_ifs <;> omega

theorem GetAddress_of_Get (T : OpcodeTable) {prog : Program} {q : InstructionPointer}
    {inst : Instruction} (h : q.Get prog = some inst) : ∃ a, q.GetAddress T prog = some a := by
  unfold InstructionPointer.Get at h
  unfold InstructionPointer.GetAddress
  cases hb : prog.block q.OriginBlock with
  | none => simp [hb] at h
  | some blk =>
    simp only [hb] at h ⊢
    have := (List.getElem?_eq_some_iff.mp h).1
    simp [Nat.le_of_lt this]

theorem GetAddress_formula (T : OpcodeTable) {prog : Program} {q : InstructionPointer} {a : Int}
    (h : q.GetAddress T prog = some a) :
    ∃ blk, prog.block q.OriginBlock = some blk ∧
      a = wrapInt (blk.Offset +
        ((blk.Instructions.take q.OriginIndex).map
          (fun inst => T.OperandSize inst.Op + 1)).sum) := by
  unfold InstructionPointer.GetAddress at h
  cases hb : prog.block q.OriginBlock with
  | none => simp [hb] at h
  | some blk =>
    simp only [hb] at h
    split at h
    · simp only [Option.some.injEq, foldl_address] at h
      exact ⟨blk, rfl, h.symm⟩
    · exact absurd h (by simp)

theorem resolve_eq {T : OpcodeTable} {prog : Program} {c : Operands}
    (f : Option Nat → List reachingState) {target : InstructionPointer} {source : Instruction}
    (ht : c.operands.head? = some target) (hs : target.Get prog = some source) :
    resolve T prog c f =
      if T.IsPush source.Op = true then
        .stop prog (.ok (f (prog.JumpDestinations (Int64 source.Arg))))
      else
        match target.GetAddress T prog with
        | none => .stop prog .panic
        | some address => .stop prog (.error (.unresolvedJump c.pc address)) := by
  unfold resolve
  simp only [ht, hs]
  cases T.IsPush source.Op <;> simp

theorem switchAt_some {T : OpcodeTable} {prog : Program} {instr : reachingState} {j : Nat}
    {c : Operands} (h : switchAt T prog instr j = some c) :
    ∃ prog', reachedSwitch T prog instr j = some (prog', c) := by
  unfold switchAt at h
  cases hr : reachedSwitch T prog instr j with
  | none => simp [hr] at h
  | some r =>
    obtain ⟨p, c'⟩ := r
    simp only [hr, Option.map_some', Option.some.injEq] at h
    exact ⟨p, by rw [h]⟩

theorem reachedSwitch_SameCode {T : OpcodeTable} {prog prog' : Program} {instr : reachingState}
    {j : Nat} {c : Operands} (h : reachedSwitch T prog instr j = some (prog', c)) :
    SameCode prog prog' := by
  unfold reachedSwitch at h
  cases hr : reached T prog instr j with
  | none => simp [hr] at h
  | some r =>
    obtain ⟨p1, w1⟩ := r
    simp only [hr] at h
    exact (reached_SameCode hr).trans (fetch_SameCode h)

theorem reachedSwitch_popped {T : OpcodeTable} {prog prog' : Program} {instr : reachingState}
    {j : Nat} {c : Operands} (h : reachedSwitch T prog instr j = some (prog', c)) :
    stack.Popn c.st (T.StackReads c.op) = some (c.operands, c.newStack) := by
  unfold reachedSwitch at h
  cases hr : reached T prog instr j with
  | none => simp [hr] at h
  | some r =>
    obtain ⟨p1, w1⟩ := r
    simp only [hr] at h
    obtain ⟨_, _, _, _, _, _, hst, _, hle, hops, hnew⟩ := fetch_spec h
    unfold stack.Popn
    rw [hst, hops, hnew]
    simp only [stack.Height] at hle
    simp [hle]

/-- C3. Conditional branch fan-out: when the walk reaches the `switch` at a
JUMPI whose target operand (operand 0) was produced by a push with immediate
`a`, `a` is a key of the jump-destination map (a Go `int`) that maps to `D`,
and the block has the fallthrough successor `N`, then `Advance` returns without
error exactly the two states at `D` and at `N`, both with the stack that
`stack.Popn` left. -/
theorem Advance_jumpi_fanout (T : OpcodeTable) (prog : Program) (instr : reachingState)
    (j : Nat) (c : Operands) (target : InstructionPointer) (source : Instruction)
    (a : Int) (D N : Nat)
    (hreach : switchAt T prog instr j = some c)
    (hop : classify T c.op = .jumpi)
    (htarget : c.operands.head? = some target)
    (hsource : target.Get prog = some source)
    (hpush : T.IsPush source.Op = true)
    (harg : source.Arg = a)
    (hkey : -(2 ^ 63) ≤ a ∧ a < 2 ^ 63)
    (hD : prog.JumpDestinations a = some D)
    (hN : prog.next instr.nextBlock = some N) :
    (Advance T prog instr).2 = .ok [⟨D, c.newStack⟩, ⟨N, c.newStack⟩] ∧
      stack.Popn c.st (T.StackReads c.op) = some (c.operands, c.newStack) := by
  obtain ⟨prog', hsw⟩ := switchAt_some hreach
  have hsame := reachedSwitch_SameCode hsw
  obtain ⟨source', hs', hop', harg'⟩ := hsame.Get_some hsource
  refine ⟨?_, reachedSwitch_popped hsw⟩
  have hd : dispatch T instr.nextBlock j prog' c =
      .stop prog' (.ok [⟨D, c.newStack⟩, ⟨N, c.newStack⟩]) := by
    unfold dispatch
    simp only [hop]
    rw [resolve_eq _ htarget hs', hop', hpush, harg', harg, Int64_of_int hkey.1 hkey.2,
      hsame.1, hD, hsame.next, hN]
    simp [jumpiStates]
  rw [Advance_of_switch_stop hsw hd]

theorem Advance_jumpi_fanout_witness :
    switchAt evm progJumpi ⟨0, []⟩ 2 = some ⟨4, [⟨0, 1⟩, ⟨0, 0⟩], 0x57, [⟨0, 1⟩, ⟨0, 0⟩], []⟩ ∧
    (Advance evm progJumpi ⟨0, []⟩).2 = .ok [⟨1, []⟩, ⟨2, []⟩] :=
  ⟨by decide,
   (Advance_jumpi_fanout evm progJumpi ⟨0, []⟩ 2 ⟨4, [⟨0, 1⟩, ⟨0, 0⟩], 0x57, [⟨0, 1⟩, ⟨0, 0⟩], []⟩
      ⟨0, 1⟩ (mkInst 0x60 7) 7 1 2 (by decide) (by decide) (by decide) rfl (by decide) rfl
      (by decide) (by decide) (by decide)).1⟩

/-- C5. The unresolved-jump error is raised exactly when the target is not a
push: when the walk reaches the `switch` at a JUMP or a JUMPI whose operand 0
is the pointer `target`, denoting the instruction `source`, then `Advance`
returns an error if and only if `source` is not push-class. The error is the
unresolved-jump one and comes with no successor state; a push-class source
always gives a list of states, whatever its immediate. -/
theorem Advance_unresolved_iff (T : OpcodeTable) (prog : Program) (instr : reachingState)
    (j : Nat) (c : Operands) (target : InstructionPointer) (source : Instruction)
    (hreach : switchAt T prog instr j = some c)
    (hop : classify T c.op = .jump ∨ classify T c.op = .jumpi)
    (htarget : c.operands.head? = some target)
    (hsource : target.Get prog = some source) :
    ((∃ e, (Advance T prog instr).2 = .error e) ↔ T.IsPush source.Op = false) ∧
    (T.IsPush source.Op = false →
      ∃ address, target.GetAddress T prog = some address ∧
        (Advance T prog instr).2 = .error (.unresolvedJump c.pc address) ∧
        (Advance T prog instr).2.states = []) ∧
    (T.IsPush source.Op = true → ∃ states, (Advance T prog instr).2 = .ok states) := by
  obtain ⟨prog', hsw⟩ := switchAt_some hreach
  have hsame := reachedSwitch_SameCode hsw
  obtain ⟨source', hs', hop', -⟩ := hsame.Get_some hsource
  obtain ⟨address, haddr⟩ := GetAddress_of_Get T hs'
  have hd : ∃ f, dispatch T instr.nextBlock j prog' c = resolve T prog' c f := by
    unfold dispatch
    rcases hop with h | h <;> simp only [h] <;> exact ⟨_, rfl⟩
  obtain ⟨f, hd⟩ := hd
  rw [resolve_eq f htarget hs', hop'] at hd
  cases hp : T.IsPush source.Op with
  | true =>
    simp only [hp, if_true] at hd
    rw [Advance_of_switch_stop hsw hd]
    simp
  | false =>
    simp only [hp, haddr] at hd
    simp only [Bool.false_eq_true, if_false] at hd
    rw [Advance_of_switch_stop hsw hd, ← hsame.GetAddress T target, haddr]
    simp [Outcome.states]

theorem Advance_unresolved_iff_witness :
    switchAt evm progComputedJump ⟨0, []⟩ 3 = some ⟨5, [⟨0, 2⟩], 0x56, [⟨0, 2⟩], []⟩ ∧
    ((∃ e, (Advance evm progComputedJump ⟨0, []⟩).2 = .error e) ↔
      evm.IsPush (mkInst 0x01 0).Op = false) :=
  ⟨by decide,
   (Advance_unresolved_iff evm progComputedJump ⟨0, []⟩ 3 ⟨5, [⟨0, 2⟩], 0x56, [⟨0, 2⟩], []⟩
      ⟨0, 2⟩ (mkInst 0x01 0) (by decide) (by decide) (by decide) rfl).1⟩

/-! ## The whole walk -/

theorem proceed_cont {T : OpcodeTable} {prog p1 : Program} {c : Operands} {s : StackFrame}
    {w1 : Walk} (h : proceed T prog c s = .cont p1 w1) :
    p1 = prog ∧ w1.pc = wrapInt (c.pc + wrapInt (T.OperandSize c.op + 1)) ∧ w1.st = s ∧
      stack.Height c.st ≤ 1024 := by
  unfold proceed at h
  split at h
  · exact absurd h (by simp)
  · rename_i hle
    simp only [Step.cont.injEq] at h
    obtain ⟨h1, h2⟩ := h
    subst h1 h2
    exact ⟨rfl, rfl, rfl, by omega⟩

theorem resolve_ne_cont (T : OpcodeTable) (prog p1 : Program) (c : Operands)
    (f : Option Nat → List reachingState) (w1 : Walk) : resolve T prog c f ≠ .cont p1 w1 := by
  unfold resolve
  repeat' split
  all_goals simp

theorem dispatch_cont {T : OpcodeTable} {b i : Nat} {prog p1 : Program} {c : Operands}
    {w1 : Walk} (h : dispatch T b i prog c = .cont p1 w1) :
    p1 = prog ∧ w1.pc = wrapInt (c.pc + wrapInt (T.OperandSize c.op + 1)) ∧
      stack.Height c.st ≤ 1024 ∧
      classify T c.op ≠ .terminator ∧ classify T c.op ≠ .jump ∧ classify T c.op ≠ .jumpi := by
  unfold dispatch at h
  split at h
  · exact absurd h (by simp)
  · rename_i hc
    have := proceed_cont h
    simp [hc, this.1, this.2.1, this.2.2.2]
  · rename_i hc
    split at h
    · exact absurd h (by simp)
    · have := proceed_cont h
      simp [hc, this.1, this.2.1, this.2.2.2]
  · rename_i hc
    split at h
    · exact absurd h (by simp)
    · have := proceed_cont h
      simp [hc, this.1, this.2.1, this.2.2.2]
  · exact absurd h (resolve_ne_cont _ _ _ _ _ _)
  · exact absurd h (resolve_ne_cont _ _ _ _ _ _)
  · rename_i hc
    split at h
    · have := proceed_cont h
      simp [hc, this.1, this.2.1, this.2.2.2]
    · split at h
      · exact absurd h (by simp)
      · have := proceed_cont h
        simp [hc, this.1, this.2.1, this.2.2.2]

theorem body_cont {T : OpcodeTable} {b i : Nat} {prog p1 : Program} {w w1 : Walk}
    (h : body T b i prog w = .cont p1 w1) :
    ∃ c, fetch T b i prog w = some (p1, c) ∧ dispatch T b i p1 c = .cont p1 w1 := by
  unfold body at h
  cases hf : fetch T b i prog w with
  | none => simp [hf] at h
  | some r =>
    obtain ⟨p2, c⟩ := r
    simp only [hf] at h
    have := (dispatch_cont h).1
    subst this
    exact ⟨c, rfl, h⟩

theorem body_stop {T : OpcodeTable} {b i : Nat} {prog p : Program} {w : Walk} {out : Outcome}
    (h : body T b i prog w = .stop p out) :
    (fetch T b i prog w = none ∧ p = prog ∧ out = .panic) ∨
      ∃ c, fetch T b i prog w = some (p, c) ∧ dispatch T b i p c = .stop p out := by
  unfold body at h
  cases hf : fetch T b i prog w with
  | none =>
    simp only [hf, Step.stop.injEq] at h
    exact Or.inl ⟨rfl, h.1.symm, h.2.symm⟩
  | some r =>
    obtain ⟨p2, c⟩ := r
    simp only [hf] at h
    have := dispatch_prog T b i p2 c
    rw [h] at this
    simp only [Step.prog] at this
    subst this
    exact Or.inr ⟨c, rfl, h⟩

/-- How the loop ends: all `n` iterations are made and the code after the loop
runs, or an earlier iteration leaves `Advance`. -/
theorem loop_cases {T : OpcodeTable} {b : Nat} {n i : Nat} {prog p : Program} {w : Walk}
    {out : Outcome} (h : loop T b n i prog w = (p, out)) :
    (∃ w', walkFrom T b n i prog w = some (p, w') ∧
        out = .ok (match p.next b with
          | some m => [⟨m, w'.st⟩]
          | none => [])) ∨
      ∃ k prog1 w1, k < n ∧ walkFrom T b k i prog w = some (prog1, w1) ∧
        body T b (i + k) prog1 w1 = .stop p out := by
  induction n generalizing i prog w with
  | zero =>
    left
    refine ⟨w, ?_⟩
    simp only [loop] at h
    cases hn : prog.next b <;> simp only [hn, Prod.mk.injEq] at h <;>
      obtain ⟨h1, h2⟩ := h <;> subst h1 h2 <;> simp [walkFrom, hn]
  | succ n ih =>
    simp only [loop] at h
    cases hs : body T b i prog w with
    | cont p1 w1 =>
      simp only [hs] at h
      rcases ih h with ⟨w', hw, hout⟩ | ⟨k, prog1, w2, hk, hw, hb⟩
      · left
        exact ⟨w', by simp only [walkFrom, hs, hw], hout⟩
      · right
        refine ⟨k + 1, prog1, w2, by omega, by simp only [walkFrom, hs, hw], ?_⟩
        have : i + (k + 1) = i + 1 + k := by omega
        rw [this]
        exact hb
    | stop p1 out1 =>
      simp only [hs, Prod.mk.injEq] at h
      right
      refine ⟨0, prog, w, by omega, rfl, ?_⟩
      rw [← h.1, ← h.2]
      exact hs

theorem GetAddress_succ (T : OpcodeTable) {prog : Program} {b i : Nat} {inst : Instruction}
    {a : Int} (hg : InstructionPointer.Get prog ⟨b, i⟩ = some inst)
    (ha : InstructionPointer.GetAddress T prog ⟨b, i⟩ = some a) :
    InstructionPointer.GetAddress T prog ⟨b, i + 1⟩ =
      some (wrapInt (a + wrapInt (T.OperandSize inst.Op + 1))) := by
  unfold InstructionPointer.Get at hg
  unfold InstructionPointer.GetAddress at ha ⊢
  cases hb : prog.block b with
  | none => simp [hb] at hg
  | some blk =>
    simp only [hb] at hg ha ⊢
    have hlt := (List.getElem?_eq_some_iff.mp hg).1
    have hget := (List.getElem?_eq_some_iff.mp hg).2
    have hle : i ≤ blk.Instructions.length := Nat.le_of_lt hlt
    simp only [hle, if_true, Option.some.injEq] at ha
    have hle' : i + 1 ≤ blk.Instructions.length := hlt
    simp only [hle', if_true, Option.some.injEq]
    rw [List.take_succ, hg]
    simp [List.foldl_append, ha]

theorem walkFrom_pc {T : OpcodeTable} {b : Nat} {k i : Nat} {prog prog1 : Program}
    {w w1 : Walk} (h : walkFrom T b k i prog w = some (prog1, w1))
    (hpc : InstructionPointer.GetAddress T prog ⟨b, i⟩ = some w.pc) :
    InstructionPointer.GetAddress T prog1 ⟨b, i + k⟩ = some w1.pc := by
  induction k generalizing i prog w with
  | zero =>
    simp only [walkFrom, Option.some.injEq, Prod.mk.injEq] at h
    rw [← h.1, ← h.2]
    exact hpc
  | succ k ih =>
    simp only [walkFrom] at h
    cases hs : body T b i prog w with
    | cont p1 w2 =>
      rw [hs] at h
      obtain ⟨c, hf, hd⟩ := body_cont hs
      obtain ⟨inst, inst', hg, -, -, hcpc, -, hcop, -⟩ := fetch_spec hf
      have hnext := GetAddress_succ T hg hpc
      have hsame := fetch_SameCode hf
      rw [← hsame.GetAddress T] at hnext
      have hw2 : w2.pc = wrapInt (w.pc + wrapInt (T.OperandSize inst.Op + 1)) := by
        rw [(dispatch_cont hd).2.1, hcpc, hcop]
      rw [← hw2] at hnext
      have := ih h hnext
      have hi : i + (k + 1) = i + 1 + k := by omega
      rw [hi]
      exact this
    | stop p1 out =>
      rw [hs] at h
      exact absurd h (by simp)

theorem entry_pc (T : OpcodeTable) {prog p0 : Program} {instr : reachingState} {w0 : Walk}
    (h : entry prog instr = some (p0, w0)) :
    InstructionPointer.GetAddress T p0 ⟨instr.nextBlock, 0⟩ = some w0.pc ∧ w0.st = instr.stack := by
  have hsame := entry_SameCode h
  rw [hsame.GetAddress T]
  unfold entry at h
  cases hb : prog.block instr.nextBlock with
  | none => simp [hb] at h
  | some blk =>
    simp only [hb, Option.some.injEq, Prod.mk.injEq] at h
    rw [← h.2]
    simp [InstructionPointer.GetAddress, hb]

theorem resolve_error {T : OpcodeTable} {prog p : Program} {c : Operands}
    {f : Option Nat → List reachingState} {pc source : Int}
    (h : resolve T prog c f = .stop p (.error (.unresolvedJump pc source))) :
    ∃ target, c.operands.head? = some target ∧ pc = c.pc ∧
      target.GetAddress T prog = some source := by
  unfold resolve at h
  split at h
  · simp at h
  · rename_i target ht
    split at h
    · simp at h
    · split at h
      · split at h
        · simp at h
        · rename_i address ha
          simp only [Step.stop.injEq, Outcome.error.injEq, AdvanceError.unresolvedJump.injEq] at h
          exact ⟨target, ht, h.2.1.symm, by rw [ha, h.2.2]⟩
      · simp at h

theorem dispatch_error {T : OpcodeTable} {b i : Nat} {prog p : Program} {c : Operands}
    {pc source : Int}
    (h : dispatch T b i prog c = .stop p (.error (.unresolvedJump pc source))) :
    (classify T c.op = .jump ∨ classify T c.op = .jumpi) ∧
      ∃ target, c.operands.head? = some target ∧ pc = c.pc ∧
        target.GetAddress T prog = some source := by
  unfold dispatch at h
  split at h
  · simp at h
  · exact absurd h (by unfold proceed; split <;> simp)
  · split at h
    · simp at h
    · exact absurd h (by unfold proceed; split <;> simp)
  · split at h
    · simp at h
    · exact absurd h (by unfold proceed; split <;> simp)
  · rename_i hc
    exact ⟨Or.inl hc, resolve_error h⟩
  · rename_i hc
    exact ⟨Or.inr hc, resolve_error h⟩
  · split at h
    · exact absurd h (by unfold proceed; split <;> simp)
    · split at h
      · simp at h
      · exact absurd h (by unfold proceed; split <;> simp)

/-- C6, as the code has it. Error payload addresses: when `Advance` fails
with the unresolved-jump error, the walk has reached the `switch` of a JUMP or
JUMPI at some index `j` of the block `b`; the first address of the error is
`GetAddress()` of the pointer `(b, j)` and the second address is
`GetAddress()` of the pointer in operand 0. `GetAddress()` is the `int` sum of
the block offset and of `OperandSize + 1` over the instructions before the
index, so it is that sum wrapped to 64 bits, and the sum itself whenever the
sum lies in the `int` range. -/
theorem Advance_error_addresses (T : OpcodeTable) (prog : Program) (instr : reachingState)
    (pc source : Int)
    (h : (Advance T prog instr).2 = .error (.unresolvedJump pc source)) :
    ∃ j c target blk blk',
      switchAt T prog instr j = some c ∧
      (classify T c.op = .jump ∨ classify T c.op = .jumpi) ∧
      c.operands.head? = some target ∧
      InstructionPointer.GetAddress T prog ⟨instr.nextBlock, j⟩ = some pc ∧
      prog.block instr.nextBlock = some blk ∧
      pc = wrapInt (blk.Offset +
        ((blk.Instructions.take j).map (fun inst => T.OperandSize inst.Op + 1)).sum) ∧
      (-(2 ^ 63) ≤ blk.Offset +
          ((blk.Instructions.take j).map (fun inst => T.OperandSize inst.Op + 1)).sum →
        blk.Offset +
          ((blk.Instructions.take j).map (fun inst => T.OperandSize inst.Op + 1)).sum < 2 ^ 63 →
        pc = blk.Offset +
          ((blk.Instructions.take j).map (fun inst => T.OperandSize inst.Op + 1)).sum) ∧
      target.GetAddress T prog = some source ∧
      prog.block target.OriginBlock = some blk' ∧
      source = wrapInt (blk'.Offset +
        ((blk'.Instructions.take target.OriginIndex).map
          (fun inst => T.OperandSize inst.Op + 1)).sum) ∧
      (-(2 ^ 63) ≤ blk'.Offset +
          ((blk'.Instructions.take target.OriginIndex).map
            (fun inst => T.OperandSize inst.Op + 1)).sum →
        blk'.Offset +
          ((blk'.Instructions.take target.OriginIndex).map
            (fun inst => T.OperandSize inst.Op + 1)).sum < 2 ^ 63 →
        source = blk'.Offset +
          ((blk'.Instructions.take target.OriginIndex).map
            (fun inst => T.OperandSize inst.Op + 1)).sum) := by
  unfold Advance at h
  cases he : entry prog instr with
  | none => simp [he] at h
  | some r0 =>
    obtain ⟨p0, w0⟩ := r0
    simp only [he] at h
    cases hl : loop T instr.nextBlock (prog.size instr.nextBlock) 0 p0 w0 with
    | mk p out =>
      rw [hl] at h
      simp only at h
      subst h
      rcases loop_cases hl with ⟨w', -, hout⟩ | ⟨k, prog1, w1, -, hw, hb⟩
      · split at hout <;> simp at hout
      · rw [Nat.zero_add] at hb
        rcases body_stop hb with ⟨-, -, hp⟩ | ⟨c, hf, hd⟩
        · simp at hp
        · obtain ⟨hcls, target, ht, hpc, hsrc⟩ := dispatch_error hd
          have hreached : reached T prog instr k = some (prog1, w1) := by
            simp only [reached, he, hw]
          have hsw : reachedSwitch T prog instr k = some (p, c) := by
            simp only [reachedSwitch, hreached, hf]
          have hsame1 := reached_SameCode hreached
          have hsame := reachedSwitch_SameCode hsw
          have hwpc := walkFrom_pc hw (entry_pc T he).1
          rw [Nat.zero_add, hsame1.GetAddress T] at hwpc
          obtain ⟨_, _, _, _, _, hcpc, -⟩ := fetch_spec hf
          rw [← hcpc, ← hpc] at hwpc
          rw [hsame.GetAddress T] at hsrc
          obtain ⟨blk, hblk, hformula⟩ := GetAddress_formula T hwpc
          obtain ⟨blk', hblk', hformula'⟩ := GetAddress_formula T hsrc
          refine ⟨k, c, target, blk, blk', by simp [switchAt, hsw], hcls, ht, hwpc, hblk,
            hformula, ?_, hsrc, hblk', hformula', ?_⟩
          · intro hlo hhi
            rw [hformula]
            exact wrapInt_of_range hlo hhi
          · intro hlo hhi
            rw [hformula']
            exact wrapInt_of_range hlo hhi

theorem Advance_error_addresses_witness :
    (Advance evm progComputedJump ⟨0, []⟩).2 = .error (.unresolvedJump 5 4) ∧
    ∃ j c target blk blk',
      switchAt evm progComputedJump ⟨0, []⟩ j = some c ∧
      (classify evm c.op = .jump ∨ classify evm c.op = .jumpi) ∧
      c.operands.head? = some target ∧
      InstructionPointer.GetAddress evm progComputedJump ⟨0, j⟩ = some 5 ∧
      progComputedJump.block 0 = some blk ∧
      (5 : Int) = wrapInt (blk.Offset +
        ((blk.Instructions.take j).map (fun inst => evm.OperandSize inst.Op + 1)).sum) ∧
      (-(2 ^ 63) ≤ blk.Offset +
          ((blk.Instructions.take j).map (fun inst => evm.OperandSize inst.Op + 1)).sum →
        blk.Offset +
          ((blk.Instructions.take j).map (fun inst => evm.OperandSize inst.Op + 1)).sum < 2 ^ 63 →
        (5 : Int) = blk.Offset +
          ((blk.Instructions.take j).map (fun inst => evm.OperandSize inst.Op + 1)).sum) ∧
      target.GetAddress evm progComputedJump = some 4 ∧
      progComputedJump.block target.OriginBlock = some blk' ∧
      (4 : Int) = wrapInt (blk'.Offset +
        ((blk'.Instructions.take target.OriginIndex).map
          (fun inst => evm.OperandSize inst.Op + 1)).sum) ∧
      (-(2 ^ 63) ≤ blk'.Offset +
          ((blk'.Instructions.take target.OriginIndex).map
            (fun inst => evm.OperandSize inst.Op + 1)).sum →
        blk'.Offset +
          ((blk'.Instructions.take target.OriginIndex).map
            (fun inst => evm.OperandSize inst.Op + 1)).sum < 2 ^ 63 →
        (4 : Int) = blk'.Offset +
          ((blk'.Instructions.take target.OriginIndex).map
            (fun inst => evm.OperandSize inst.Op + 1)).sum) :=
  ⟨by decide, Advance_error_addresses evm progComputedJump ⟨0, []⟩ 5 4 (by decide)⟩

/-- C6 as stated fails where the sum leaves the `int` range: the block at
offset `2 ^ 63 - 1` is `JUMPDEST; JUMP`, entered with the one-entry stack
`[(0, 0)]`. The JUMP at index 1 takes the JUMPDEST as its target, which is not
a push, and the error carries the running `pc`, which has wrapped to
`-(2 ^ 63)`, while the block offset plus the sum of `OperandSize + 1` over the
instructions before index 1 is `2 ^ 63`. -/
theorem Advance_error_addresses_counterexample :
    (Advance evm progLastAddress ⟨0, [⟨0, 0⟩]⟩).2 =
        .error (.unresolvedJump (-(2 ^ 63)) (2 ^ 63 - 1)) ∧
      InstructionPointer.GetAddress evm progLastAddress ⟨0, 1⟩ = some (-(2 ^ 63)) ∧
      ∃ blk, progLastAddress.block 0 = some blk ∧
        blk.Offset +
          ((blk.Instructions.take 1).map (fun inst => evm.OperandSize inst.Op + 1)).sum =
            2 ^ 63 ∧
        (-(2 ^ 63) : Int) ≠ blk.Offset +
          ((blk.Instructions.take 1).map (fun inst => evm.OperandSize inst.Op + 1)).sum := by
  refine ⟨by decide, by decide, _, rfl, by decide, by decide⟩

/-! ## Terminators -/

theorem classify_jump {T : OpcodeTable} {op : OpCode} (h : classify T op = .jump) :
    op = T.JUMP := by
  unfold classify at h
  split_ifs at h
  assumption

theorem classify_jumpi {T : OpcodeTable} {op : OpCode} (h : classify T op = .jumpi) :
    op = T.JUMPI := by
  unfold classify at h
  split_ifs at h
  assumption

theorem classify_terminator {T : OpcodeTable} {op : OpCode}
    (h : op = T.STOP ∨ op = T.RETURN ∨ op = T.REVERT ∨ op = T.INVALID ∨ op = T.SELFDESTRUCT) :
    classify T op = .terminator := by
  unfold classify
  have : op = T.STOP ∨ op = T.RETURN ∨ op = T.INVALID ∨ op = T.REVERT ∨ op = T.SELFDESTRUCT := by
    tauto
  simp only [this, if_true]

theorem proceed_stop_states {T : OpcodeTable} {prog p : Program} {c : Operands} {s : StackFrame}
    {out : Outcome} (h : proceed T prog c s = .stop p out) : out = .ok [] := by
  unfold proceed at h
  split at h
  · simp only [Step.stop.injEq] at h
    exact h.2.symm
  · exact absurd h (by simp)

theorem dispatch_stop_states {T : OpcodeTable} {b i : Nat} {prog p : Program} {c : Operands}
    {out : Outcome} (h : dispatch T b i prog c = .stop p out)
    (hj : classify T c.op ≠ .jump) (hji : classify T c.op ≠ .jumpi) : out.states = [] := by
  unfold dispatch at h
  split at h
  · simp only [Step.stop.injEq] at h
    rw [← h.2]; rfl
  · rw [proceed_stop_states h]; rfl
  · split at h
    · simp only [Step.stop.injEq] at h
      rw [← h.2]; rfl
    · rw [proceed_stop_states h]; rfl
  · split at h
    · simp only [Step.stop.injEq] at h
      rw [← h.2]; rfl
    · rw [proceed_stop_states h]; rfl
  · rename_i hc
    exact absurd hc hj
  · rename_i hc
    exact absurd hc hji
  · split at h
    · rw [proceed_stop_states h]; rfl
    · split at h
      · simp only [Step.stop.injEq] at h
        rw [← h.2]; rfl
      · rw [proceed_stop_states h]; rfl

theorem walkFrom_succ_last {T : OpcodeTable} {b : Nat} {k i : Nat} {prog p : Program}
    {w w' : Walk} (h : walkFrom T b (k + 1) i prog w = some (p, w')) :
    ∃ p1 w1, walkFrom T b k i prog w = some (p1, w1) ∧
      body T b (i + k) p1 w1 = .cont p w' := by
  induction k generalizing i prog w with
  | zero =>
    simp only [walkFrom] at h
    cases hs : body T b i prog w with
    | cont p1 w1 =>
      simp only [hs, Option.some.injEq, Prod.mk.injEq] at h
      refine ⟨prog, w, rfl, ?_⟩
      rw [Nat.add_zero, hs, h.1, h.2]
    | stop p1 out => simp [hs] at h
  | succ k ih =>
    rw [walkFrom] at h
    cases hs : body T b i prog w with
    | cont p1 w1 =>
      simp only [hs] at h
      obtain ⟨p2, w2, hw, hb⟩ := ih h
      refine ⟨p2, w2, by simp only [walkFrom, hs, hw], ?_⟩
      have : i + (k + 1) = i + 1 + k := by omega
      rw [this]
      exact hb
    | stop p1 out => simp [hs] at h

theorem fetch_op {T : OpcodeTable} {b i : Nat} {prog p1 p : Program} {w1 : Walk} {c : Operands}
    (hsame : SameCode prog p1) (hf : fetch T b i p1 w1 = some (p, c)) :
    ∃ inst, InstructionPointer.Get prog ⟨b, i⟩ = some inst ∧ inst.Op = c.op := by
  obtain ⟨inst1, -, hg, -, -, -, -, hop, -⟩ := fetch_spec hf
  obtain ⟨inst, hg', hop', -⟩ := hsame.symm.Get_some hg
  exact ⟨inst, hg', by rw [hop', hop]⟩

/-- C7. Terminator pruning: when the block holds no JUMP and no JUMPI and its
last instruction is STOP, RETURN, REVERT, INVALID or SELFDESTRUCT, `Advance`
hands no successor state to its caller, whatever `Next` is and in whichever way
the call ends. -/
theorem Advance_terminator_no_successor (T : OpcodeTable) (prog : Program)
    (instr : reachingState) (blk : BasicBlock) (last : Instruction)
    (hblk : prog.block instr.nextBlock = some blk)
    (hnojump : ∀ inst ∈ blk.Instructions, inst.Op ≠ T.JUMP ∧ inst.Op ≠ T.JUMPI)
    (hlast : blk.Instructions.getLast? = some last)
    (hterm : last.Op = T.STOP ∨ last.Op = T.RETURN ∨ last.Op = T.REVERT ∨
      last.Op = T.INVALID ∨ last.Op = T.SELFDESTRUCT) :
    (Advance T prog instr).2.states = [] := by
  have hmem : ∀ i inst, InstructionPointer.Get prog ⟨instr.nextBlock, i⟩ = some inst →
      inst ∈ blk.Instructions := by
    intro i inst hg
    simp only [InstructionPointer.Get, hblk] at hg
    exact List.getElem?_mem hg
  have hsize : prog.size instr.nextBlock = blk.Instructions.length := by
    simp [Program.size, hblk]
  unfold Advance
  cases he : entry prog instr with
  | none => rfl
  | some r0 =>
    obtain ⟨p0, w0⟩ := r0
    simp only
    cases hl : loop T instr.nextBlock (prog.size instr.nextBlock) 0 p0 w0 with
    | mk p out =>
      simp only
      rcases loop_cases hl with ⟨w', hw, -⟩ | ⟨k, prog1, w1, -, hw, hb⟩
      · exfalso
        have hpos : 0 < blk.Instructions.length := by
          cases hI : blk.Instructions with
          | nil => simp [hI] at hlast
          | cons x xs => simp
        obtain ⟨n, hn⟩ : ∃ n, prog.size instr.nextBlock = n + 1 :=
          ⟨prog.size instr.nextBlock - 1, by omega⟩
        rw [hn] at hw
        obtain ⟨p1, w1, hw1, hb⟩ := walkFrom_succ_last hw
        rw [Nat.zero_add] at hb
        obtain ⟨c, hf, hd⟩ := body_cont hb
        have hsame : SameCode prog p1 := (entry_SameCode he).trans (walkFrom_SameCode hw1)
        obtain ⟨inst, hg, hop⟩ := fetch_op hsame hf
        have hidx : blk.Instructions[n]? = some last := by
          rw [List.getLast?_eq_getElem?] at hlast
          have : blk.Instructions.length - 1 = n := by omega
          rw [this] at hlast
          exact hlast
        simp only [InstructionPointer.Get, hblk, hidx, Option.some.injEq] at hg
        subst hg
        rw [hop] at hterm
        exact (dispatch_cont hd).2.2.2.1 (classify_terminator hterm)
      · rw [Nat.zero_add] at hb
        rcases body_stop hb with ⟨-, -, hp⟩ | ⟨c, hf, hd⟩
        · rw [hp]; rfl
        · have hsame : SameCode prog prog1 := (entry_SameCode he).trans (walkFrom_SameCode hw)
          obtain ⟨inst, hg, hop⟩ := fetch_op hsame hf
          have hno := hnojump inst (hmem k inst hg)
          rw [hop] at hno
          exact dispatch_stop_states hd (fun h => hno.1 (classify_jump h))
            (fun h => hno.2 (classify_jumpi h))

theorem Advance_terminator_no_successor_witness :
    (Advance evm progHalt ⟨0, []⟩).2.states = [] :=
  Advance_terminator_no_successor evm progHalt ⟨0, []⟩
    (mkBlock 0 [mkInst 0x60 1, mkInst 0x00 0] (some 1)) (mkInst 0x00 0) rfl
    (by
      intro inst h
      simp only [mkBlock, List.mem_cons, List.mem_singleton, List.not_mem_nil, or_false] at h
      rcases h with h | h <;> subst h <;> decide)
    rfl (Or.inl rfl)

/-! ## Block-entry facts -/

theorem Get_Set (tym : TypeMap) (t : FactType) (v : t.Val) : (tym.Set t v).Get t = v := by
  simp [TypeMap.Get, TypeMap.Set]

theorem Get_Set_ne (tym : TypeMap) {t t' : FactType} (v : t.Val) (h : t' ≠ t) :
    (tym.Set t v).Get t' = tym.Get t' := by
  simp [TypeMap.Get, TypeMap.Set, Function.update_noteq h]

theorem length_mergeEntry (rs : List InstructionPointerSet) (st : StackFrame) :
    (mergeEntry rs st).length = rs.length := by
  induction rs generalizing st with
  | nil => simp [mergeEntry]
  | cons r rs ih =>
    cases st with
    | nil => simp [mergeEntry]
    | cons v st => simp [mergeEntry, ih]

theorem getElem?_mergeEntry (rs : List InstructionPointerSet) (st : StackFrame) (i : Nat)
    (hst : i < st.length) (hrs : i < rs.length) :
    ∃ old value, rs[i]? = some old ∧ st[i]? = some value ∧
      (mergeEntry rs st)[i]? = some (old.add value) := by
  induction rs generalizing st i with
  | nil => simp at hrs
  | cons r rs ih =>
    cases st with
    | nil => simp at hst
    | cons v st =>
      cases i with
      | zero => exact ⟨r, v, by simp [mergeEntry]⟩
      | succ i =>
        simp only [List.length_cons, Nat.add_lt_add_iff_right] at hst hrs
        obtain ⟨old, value, h1, h2, h3⟩ := ih st i hst hrs
        exact ⟨old, value, by simpa using h1, by simpa using h2, by simpa [mergeEntry] using h3⟩

theorem mem_add (s : InstructionPointerSet) (v x : InstructionPointer) :
    x ∈ (s.add v).keys ↔ x = v ∨ x ∈ s.keys := by
  simp [InstructionPointerSet.add, List.mem_insert_iff]

theorem entryReaching_updateBlockReachings (block : BasicBlock) (st : StackFrame) :
    (updateBlockReachings block st).entryReaching =
      some ((mergeEntry
        (match block.entryReaching with
          | none => List.replicate (stack.Height st) InstructionPointerSet.empty
          | some r => r) st).take (stack.Height st)) := by
  unfold updateBlockReachings BasicBlock.entryReaching
  simp only [Get_Set]
  split
  · rfl
  · rename_i h
    rw [List.take_of_length_le (by omega)]

/-- C9. Block-entry truncation and monotonicity: when the block-entry Reaching
Definition that the block stores has at least the height of the entry stack,
`updateBlockReachings` stores a definition whose length is exactly that height,
and whose set at every depth `i` below the height is the previous set at depth
`i` with the value of the entry stack at depth `i` added, a superset of the
previous set. The sets at greater depths are gone. -/
theorem updateBlockReachings_truncates (block : BasicBlock) (st : StackFrame)
    (hle : stack.Height st ≤ block.entryReaching.len) :
    ∃ r', (updateBlockReachings block st).entryReaching = some r' ∧
      r'.length = stack.Height st ∧
      ∀ i, i < stack.Height st →
        ∃ old value, (block.entryReaching.getD [])[i]? = some old ∧ st[i]? = some value ∧
          r'[i]? = some (old.add value) ∧
          (∀ x, x ∈ (old.add value).keys ↔ x = value ∨ x ∈ old.keys) ∧
          old.keys ⊆ (old.add value).keys := by
  refine ⟨_, entryReaching_updateBlockReachings block st, ?_, ?_⟩
  · rw [List.length_take, length_mergeEntry]
    cases h : block.entryReaching with
    | none => simp [stack.Height]
    | some r =>
      simp only [h, ReachingDefinition.len] at hle ⊢
      omega
  · intro i hi
    cases h : block.entryReaching with
    | none =>
      simp only [h, ReachingDefinition.len] at hle
      omega
    | some r =>
      simp only [h, ReachingDefinition.len] at hle
      simp only [stack.Height] at hi hle
      obtain ⟨old, value, h1, h2, h3⟩ := getElem?_mergeEntry r st i hi (by omega)
      refine ⟨old, value, by simpa using h1, h2, ?_, mem_add old value, ?_⟩
      · rw [List.getElem?_take_of_lt (by simpa [stack.Height] using hi)]
        exact h3
      · intro x hx
        exact (mem_add old value x).mpr (Or.inr hx)

theorem updateBlockReachings_truncates_witness :
    ∃ r', (updateBlockReachings
        (updateBlockReachings (mkBlock 0 [] none) [⟨0, 1⟩, ⟨0, 0⟩]) [⟨1, 0⟩]).entryReaching =
          some r' ∧
      r'.length = stack.Height [⟨1, 0⟩] ∧
      ∀ i, i < stack.Height [⟨1, 0⟩] →
        ∃ old value,
          ((updateBlockReachings (mkBlock 0 [] none)
            [⟨0, 1⟩, ⟨0, 0⟩]).entryReaching.getD [])[i]? = some old ∧
          ([⟨1, 0⟩] : StackFrame)[i]? = some value ∧
          r'[i]? = some (old.add value) ∧
          (∀ x, x ∈ (old.add value).keys ↔ x = value ∨ x ∈ old.keys) ∧
          old.keys ⊆ (old.add value).keys :=
  updateBlockReachings_truncates
    (updateBlockReachings (mkBlock 0 [] none) [⟨0, 1⟩, ⟨0, 0⟩]) [⟨1, 0⟩] (by decide)

/-- C10, as the code has it. The length of the block-entry Reaching Definition
after `updateBlockReachings` is the height of the entry stack when the block
stored none before, and otherwise the smaller of that height and the length of
the stored definition: a stored definition is never extended. -/
theorem updateBlockReachings_length (block : BasicBlock) (st : StackFrame) :
    (updateBlockReachings block st).entryReaching.len =
      match block.entryReaching with
      | none => stack.Height st
      | some r => min r.length (stack.Height st) := by
  rw [entryReaching_updateBlockReachings]
  simp only [ReachingDefinition.len, List.length_take, length_mergeEntry]
  cases h : block.entryReaching with
  | none => simp
  | some r => simp [Nat.min_comm]

/-- C10 as stated fails: a block entered with a stack of height 1 and then
with a stack of height 2 keeps a block-entry Reaching Definition of length 1. -/
theorem updateBlockReachings_length_counterexample :
    (updateBlockReachings (updateBlockReachings (mkBlock 0 [] none) [⟨0, 0⟩])
        [⟨0, 1⟩, ⟨0, 0⟩]).entryReaching.len = 1 ∧
      (updateBlockReachings (updateBlockReachings (mkBlock 0 [] none) [⟨0, 0⟩])
        [⟨0, 1⟩, ⟨0, 0⟩]).entryReaching.len ≠ stack.Height [⟨0, 1⟩, ⟨0, 0⟩] := by
  decide

/-! ## Operand facts -/

theorem body_prog_eq (T : OpcodeTable) (b i : Nat) (prog : Program) (w : Walk) :
    (body T b i prog w).prog =
      match fetch T b i prog w with
      | none => prog
      | some (p', _) => p' := by
  unfold body
  cases h : fetch T b i prog w with
  | none => rfl
  | some r =>
    obtain ⟨p', c⟩ := r
    exact dispatch_prog T b i p' c

theorem body_frame (T : OpcodeTable) (b i : Nat) (prog : Program) (w : Walk)
    (q : InstructionPointer) (hq : q ≠ ⟨b, i⟩) :
    q.Get (body T b i prog w).prog = q.Get prog := by
  rw [body_prog_eq]
  cases h : fetch T b i prog w with
  | none => rfl
  | some r =>
    obtain ⟨p', c⟩ := r
    obtain ⟨inst, inst', -, -, hp, -⟩ := fetch_spec h
    simp only [hp, Get_setInst, hq, if_false]

theorem walkFrom_frame {T : OpcodeTable} {b : Nat} {k i : Nat} {prog p1 : Program}
    {w w1 : Walk} (h : walkFrom T b k i prog w = some (p1, w1)) (q : InstructionPointer)
    (hq : q.OriginBlock ≠ b ∨ q.OriginIndex < i ∨ i + k ≤ q.OriginIndex) :
    q.Get p1 = q.Get prog := by
  induction k generalizing i prog w with
  | zero =>
    simp only [walkFrom, Option.some.injEq, Prod.mk.injEq] at h
    rw [← h.1]
  | succ k ih =>
    simp only [walkFrom] at h
    have hf := body_frame T b i prog w q (by
      intro he
      subst he
      simp at hq)
    cases hs : body T b i prog w with
    | cont p2 w2 =>
      rw [hs] at h hf
      simp only [Step.prog] at hf
      rw [ih h (by omega), hf]
    | stop p2 out =>
      rw [hs] at h
      exact absurd h (by simp)

theorem loop_frame (T : OpcodeTable) (b : Nat) (n i : Nat) (prog : Program) (w : Walk)
    (q : InstructionPointer) (hq : q.OriginBlock ≠ b ∨ q.OriginIndex < i) :
    q.Get (loop T b n i prog w).1 = q.Get prog := by
  induction n generalizing i prog w with
  | zero =>
    simp only [loop]
    split <;> rfl
  | succ n ih =>
    simp only [loop]
    have hf := body_frame T b i prog w q (by
      intro he
      subst he
      simp at hq)
    cases hs : body T b i prog w with
    | cont p2 w2 =>
      rw [hs] at hf
      simp only [Step.prog] at hf
      simp only
      rw [ih (i + 1) p2 w2 (by omega), hf]
    | stop p2 out =>
      rw [hs] at hf
      exact hf

theorem recordOperands_replicate (operands : List InstructionPointer) :
    recordOperands (List.replicate operands.length InstructionPointerSet.empty) operands =
      some (operands.map InstructionPointerSet.singleton) := by
  induction operands with
  | nil => simp [recordOperands]
  | cons o os ih =>
    simp only [List.length_cons, List.replicate_succ, recordOperands, ih, List.map_cons]
    rfl

theorem updateReachings_fresh {inst : Instruction} (operands : List InstructionPointer)
    (h : (inst.Annotations.Get .reaching : ReachingDefinition) = none) :
    ∃ inst', updateReachings inst operands = some inst' ∧
      (inst'.Annotations.Get .reaching : ReachingDefinition) =
        some (operands.map InstructionPointerSet.singleton) := by
  unfold updateReachings
  simp only [h, recordOperands_replicate]
  exact ⟨_, rfl, Get_Set _ _ _⟩

theorem walkAt_some {T : OpcodeTable} {prog : Program} {instr : reachingState} {j : Nat}
    {w : Walk} (h : walkAt T prog instr j = some w) :
    ∃ p0 w0 p1, entry prog instr = some (p0, w0) ∧
      walkFrom T instr.nextBlock j 0 p0 w0 = some (p1, w) := by
  unfold walkAt reached at h
  cases he : entry prog instr with
  | none => simp [he] at h
  | some r0 =>
    obtain ⟨p0, w0⟩ := r0
    simp only [he] at h
    cases hw : walkFrom T instr.nextBlock j 0 p0 w0 with
    | none => simp [hw] at h
    | some r1 =>
      obtain ⟨p1, w1⟩ := r1
      simp only [hw, Option.map_some', Option.some.injEq] at h
      subst h
      exact ⟨p0, w0, p1, rfl, hw⟩

theorem entry_Get {prog p0 : Program} {instr : reachingState} {w0 : Walk}
    (h : entry prog instr = some (p0, w0)) (q : InstructionPointer) : q.Get p0 = q.Get prog := by
  unfold entry at h
  cases hb : prog.block instr.nextBlock with
  | none => simp [hb] at h
  | some blk =>
    simp only [hb, Option.some.injEq, Prod.mk.injEq] at h
    rw [← h.1, Get_setBlockAnnotations]

/-- C1. Operand set correctness of `Advance`: when no instruction of the block
stores a Reaching Definition yet and the running stack holds at least
`StackReads` values at every instruction the walk reaches, then for every
instruction `j` that the walk reaches, with the running stack `w.st` just
before it, the program after `Advance` stores on `j` a Reaching Definition
with exactly `StackReads` entries, entry `k` being the singleton of the value
at depth `k` of `w.st`. -/
theorem Advance_operand_sets (T : OpcodeTable) (prog : Program) (instr : reachingState)
    (j : Nat) (w : Walk) (op : OpCode)
    (hfresh : ∀ i, reachingOf prog ⟨instr.nextBlock, i⟩ = none)
    (hdeep : ∀ i wi opi, walkAt T prog instr i = some wi →
      opOf prog ⟨instr.nextBlock, i⟩ = some opi → T.StackReads opi ≤ stack.Height wi.st)
    (hreach : walkAt T prog instr j = some w)
    (hop : opOf prog ⟨instr.nextBlock, j⟩ = some op) :
    reachingOf (Advance T prog instr).1 ⟨instr.nextBlock, j⟩ =
        some ((w.st.take (T.StackReads op)).map InstructionPointerSet.singleton) ∧
      ((w.st.take (T.StackReads op)).map InstructionPointerSet.singleton).length =
        T.StackReads op ∧
      ∀ k, k < T.StackReads op →
        ∃ value, w.st[k]? = some value ∧
          ((w.st.take (T.StackReads op)).map InstructionPointerSet.singleton)[k]? =
            some (InstructionPointerSet.singleton value) := by
  have hle := hdeep j w op hreach hop
  simp only [stack.Height] at hle
  refine ⟨?_, by simp [hle], ?_⟩
  · obtain ⟨p0, w0, p1, he, hw⟩ := walkAt_some hreach
    cases hg : InstructionPointer.Get prog ⟨instr.nextBlock, j⟩ with
    | none => simp [opOf, hg] at hop
    | some inst =>
      simp only [opOf, hg, Option.map_some', Option.some.injEq] at hop
      have hlt := Get_lt_size hg
      have hg1 : InstructionPointer.Get p1 ⟨instr.nextBlock, j⟩ = some inst := by
        rw [walkFrom_frame hw _ (by simp), entry_Get he, hg]
      have hnone : (inst.Annotations.Get .reaching : ReachingDefinition) = none := by
        have := hfresh j
        simpa [reachingOf, hg] using this
      obtain ⟨inst', hu, hr'⟩ :=
        updateReachings_fresh (w.st.take (T.StackReads inst.Op)) hnone
      have hpop : stack.Popn w.st (T.StackReads inst.Op) =
          some (w.st.take (T.StackReads inst.Op), w.st.drop (T.StackReads inst.Op)) := by
        simp [stack.Popn, hop, hle]
      have hfetch : fetch T instr.nextBlock j p1 w =
          some (p1.setInst ⟨instr.nextBlock, j⟩ inst',
            ⟨w.pc, w.st, inst.Op, w.st.take (T.StackReads inst.Op),
              w.st.drop (T.StackReads inst.Op)⟩) := by
        simp only [fetch, hg1, hpop, hu]
      have hbody := body_prog_eq T instr.nextBlock j p1 w
      rw [hfetch] at hbody
      simp only at hbody
      obtain ⟨n, hn⟩ : ∃ n, prog.size instr.nextBlock = j + (n + 1) :=
        ⟨prog.size instr.nextBlock - j - 1, by omega⟩
      have hfinal : InstructionPointer.Get (Advance T prog instr).1 ⟨instr.nextBlock, j⟩ =
          some inst' := by
        unfold Advance
        simp only [he, hn]
        rw [loop_walkFrom (n + 1) hw, Nat.zero_add, loop]
        cases hs : body T instr.nextBlock j p1 w with
        | cont p2 w2 =>
          rw [hs] at hbody
          simp only [Step.prog] at hbody
          simp only
          rw [loop_frame _ _ _ _ _ _ _ (by simp), hbody, Get_setInst]
          simp [hg1]
        | stop p2 out =>
          rw [hs] at hbody
          simp only [Step.prog] at hbody
          simp only
          rw [hbody, Get_setInst]
          simp [hg1]
      simp only [reachingOf, hfinal]
      rw [hr', hop]
  · intro k hk
    have hk' : k < w.st.length := by omega
    refine ⟨w.st[k], by simp [hk'], ?_⟩
    simp [List.getElem?_map, List.getElem?_take_of_lt hk, hk']

theorem Advance_operand_sets_witness :
    walkAt evm progAdd ⟨0, []⟩ 2 = some ⟨4, [⟨0, 1⟩, ⟨0, 0⟩]⟩ ∧
    reachingOf (Advance evm progAdd ⟨0, []⟩).1 ⟨0, 2⟩ =
      some [InstructionPointerSet.singleton ⟨0, 1⟩, InstructionPointerSet.singleton ⟨0, 0⟩] :=
  ⟨by decide,
   (Advance_operand_sets evm progAdd ⟨0, []⟩ 2 ⟨4, [⟨0, 1⟩, ⟨0, 0⟩]⟩ 0x01
      (by
        intro i
        match i with
        | 0 => rfl
        | 1 => rfl
        | 2 => rfl
        | n + 3 => rfl)
      (by
        intro i wi opi hw ho
        match i, hw, ho with
        | 0, hw, ho =>
          have h1 : walkAt evm progAdd ⟨0, []⟩ 0 = some ⟨0, []⟩ := by decide
          have h2 : opOf progAdd ⟨0, 0⟩ = some 0x60 := by decide
          rw [h1] at hw; rw [h2] at ho
          cases hw; cases ho; decide
        | 1, hw, ho =>
          have h1 : walkAt evm progAdd ⟨0, []⟩ 1 = some ⟨2, [⟨0, 0⟩]⟩ := by decide
          have h2 : opOf progAdd ⟨0, 1⟩ = some 0x60 := by decide
          rw [h1] at hw; rw [h2] at ho
          cases hw; cases ho; decide
        | 2, hw, ho =>
          have h1 : walkAt evm progAdd ⟨0, []⟩ 2 = some ⟨4, [⟨0, 1⟩, ⟨0, 0⟩]⟩ := by decide
          have h2 : opOf progAdd ⟨0, 2⟩ = some 0x01 := by decide
          rw [h1] at hw; rw [h2] at ho
          cases hw; cases ho; decide
        | n + 3, hw, ho =>
          have h2 : opOf progAdd ⟨0, n + 3⟩ = none := rfl
          rw [h2] at ho
          cases ho)
      (by decide) (by decide)).1⟩

/-! ## The height check and the destination lookup on concrete programs -/

set_option maxRecDepth 100000 in
/-- C2 fails on the code. The block `PUSH1 0` with a fallthrough successor,
entered with a stack of height 1024: `Advance` compares the height of `st`
before the instruction with 1024, so the walk goes on and the successor state
carries a stack of height 1025. -/
theorem Advance_exceeds_cap :
    stack.Height fullStack = 1024 ∧
      (Advance evm progPush ⟨0, fullStack⟩).2 = .ok [⟨1, ⟨0, 0⟩ :: fullStack⟩] ∧
      stack.Height (⟨0, 0⟩ :: fullStack) = 1025 := by
  refine ⟨by simp only [stack.Height, fullStack, List.length_replicate], ?_,
    by simp only [stack.Height, fullStack, List.length_cons, List.length_replicate]⟩
  decide

/-- C4 fails on the code. The JUMP of `progWideJump` has the push-sourced
target `2 ^ 64 + 11`, which is no known jump destination, and `Advance` still
returns a successor state, at the block of address 11: the lookup is made with
`Arg.Int64()`, the low 64 bits of the immediate. -/
theorem Advance_jump_truncates :
    progWideJump.JumpDestinations (2 ^ 64 + 11) = none ∧
      switchAt evm progWideJump ⟨0, []⟩ 1 = some ⟨10, [⟨0, 0⟩], 0x56, [⟨0, 0⟩], []⟩ ∧
      (Advance evm progWideJump ⟨0, []⟩).2 = .ok [⟨1, []⟩] := by
  decide

/-! ## The reaches relation -/

theorem SameFacts.same (prog : Program) : SameFacts prog prog :=
  ⟨SameCode.refl prog, fun _ => rfl⟩

theorem SameFacts.chain {p1 p2 p3 : Program} (h12 : SameFacts p1 p2) (h23 : SameFacts p2 p3) :
    SameFacts p1 p3 :=
  ⟨h12.1.trans h23.1, fun q => (h23.2 q).trans (h12.2 q)⟩

theorem SameCode.isSome {prog prog' : Program} (h : SameCode prog prog')
    (q : InstructionPointer) : (q.Get prog').isSome = (q.Get prog).isSome := by
  have := h.Get q
  cases h1 : q.Get prog <;> cases h2 : q.Get prog' <;> simp [h1, h2] at this ⊢

theorem SameCode.length {prog prog' : Program} (h : SameCode prog prog') :
    prog'.Blocks.length = prog.Blocks.length := by
  have key : ∀ b, prog'.Blocks.length ≤ b ↔ prog.Blocks.length ≤ b := by
    intro b
    have hb := h.2 b
    simp only [Program.block] at hb
    rw [← List.getElem?_eq_none_iff, ← List.getElem?_eq_none_iff]
    cases h1 : prog.Blocks[b]? <;> cases h2 : prog'.Blocks[b]? <;> simp [h1, h2] at hb ⊢
  have h1 := (key prog.Blocks.length).mpr (Nat.le_refl _)
  have h2 := (key prog'.Blocks.length).mp (Nat.le_refl _)
  omega

theorem SameFacts.consumed (T : OpcodeTable) {prog prog' : Program} (h : SameFacts prog prog')
    (q p : InstructionPointer) : consumed T prog' q p = consumed T prog q p := by
  have hg := h.1.Get q
  have hr := h.2 q
  unfold Evmdis.consumed
  unfold reachingOf at hr
  cases h1 : q.Get prog <;> cases h2 : q.Get prog' <;> simp [h1, h2] at hg hr ⊢
  rename_i inst inst'
  simp only [Instruction.code, Prod.mk.injEq] at hg
  rw [hg.1, hr]

theorem Get_size {prog : Program} {b i : Nat} (h : i < prog.size b) :
    (InstructionPointer.Get prog ⟨b, i⟩).isSome = true := by
  unfold Program.size at h
  unfold InstructionPointer.Get
  cases hb : prog.block b with
  | none => simp [hb] at h
  | some blk =>
    simp only [hb] at h ⊢
    simp [List.getElem?_eq_getElem h]

theorem consumed_pos_block {T : OpcodeTable} {prog : Program} {q p : InstructionPointer}
    (h : consumed T prog q p ≠ 0) :
    q.OriginBlock < prog.Blocks.length ∧ q.OriginIndex < prog.size q.OriginBlock := by
  unfold consumed at h
  cases hg : q.Get prog with
  | none => simp [hg] at h
  | some inst =>
    have hlt : q.OriginIndex < prog.size q.OriginBlock := Get_lt_size (b := q.OriginBlock) hg
    refine ⟨?_, hlt⟩
    unfold Program.size Program.block at hlt
    cases hb : prog.Blocks[q.OriginBlock]? with
    | none => simp [hb] at hlt
    | some blk => exact (List.getElem?_eq_some_iff.mp hb).1

theorem appendReaches_spec (ptr : InstructionPointer) (prog : Program)
    (pointer : InstructionPointer) (hv : (pointer.Get prog).isSome = true) :
    ∃ prog', appendReaches ptr prog pointer = some prog' ∧ SameFacts prog prog' ∧
      ∀ x q, (reachesOf prog' q).count x =
        (reachesOf prog q).count x + if x = ptr ∧ q = pointer then 1 else 0 := by
  cases hg : pointer.Get prog with
  | none => simp [hg] at hv
  | some inst =>
    simp only [appendReaches, hg, Option.some.injEq, exists_eq_left']
    refine ⟨⟨SameCode.setInst hg rfl rfl, ?_⟩, ?_⟩
    · intro q
      unfold reachingOf
      rw [Get_setInst]
      by_cases hq : q = pointer
      · subst hq
        simp only [if_true, hg, Option.map_some']
        exact Get_Set_ne _ _ (by decide)
      · simp only [hq, if_false]
    · intro x q
      unfold reachesOf
      rw [Get_setInst]
      by_cases hq : q = pointer
      · subst hq
        simp only [if_true, hg, Option.map_some', Get_Set, and_true]
        rw [List.count_append, List.count_singleton]
        by_cases hx : x = ptr
        · subst hx; simp
        · have : (ptr == x) = false := by
            simp only [beq_eq_false_iff_ne, ne_eq]
            exact fun h => hx h.symm
          simp [hx, this]
      · simp [hq]

theorem foldlM_appendReaches (ptr : InstructionPointer) (l : List InstructionPointer)
    (prog : Program) (hv : ∀ p ∈ l, (p.Get prog).isSome = true) :
    ∃ prog', l.foldlM (appendReaches ptr) prog = some prog' ∧ SameFacts prog prog' ∧
      ∀ x q, (reachesOf prog' q).count x =
        (reachesOf prog q).count x + if x = ptr then l.count q else 0 := by
  induction l generalizing prog with
  | nil => exact ⟨prog, rfl, SameFacts.same prog, by simp⟩
  | cons p l ih =>
    obtain ⟨p1, h1, hs1, hc1⟩ := appendReaches_spec ptr prog p (hv p (List.mem_cons_self _ _))
    have hv1 : ∀ p' ∈ l, (p'.Get p1).isSome = true := by
      intro p' hp'
      rw [hs1.1.isSome]
      exact hv p' (List.mem_cons_of_mem _ hp')
    obtain ⟨p2, h2, hs2, hc2⟩ := ih p1 hv1
    refine ⟨p2, by simp only [List.foldlM_cons, h1, Option.bind_eq_bind, Option.some_bind, h2],
      hs1.chain hs2, ?_⟩
    intro x q
    rw [hc2, hc1, List.count_cons]
    by_cases hx : x = ptr
    · by_cases hq : q = p
      · subst hq; simp [hx]; omega
      · have : (p == q) = false := by
          simp only [beq_eq_false_iff_ne, ne_eq]
          exact fun h => hq h.symm
        simp [hx, hq, this]
    · simp [hx]

theorem foldlM_reachesOfSet (ptr : InstructionPointer) (r : List InstructionPointerSet)
    (prog : Program) (hv : ∀ s ∈ r, ∀ p ∈ s.keys, (p.Get prog).isSome = true) :
    ∃ prog', r.foldlM (reachesOfSet ptr) prog = some prog' ∧ SameFacts prog prog' ∧
      ∀ x q, (reachesOf prog' q).count x =
        (reachesOf prog q).count x +
          if x = ptr then (r.map (fun s => s.keys.count q)).sum else 0 := by
  induction r generalizing prog with
  | nil => exact ⟨prog, rfl, SameFacts.same prog, by simp⟩
  | cons s r ih =>
    obtain ⟨p1, h1, hs1, hc1⟩ :=
      foldlM_appendReaches ptr s.keys prog (hv s (List.mem_cons_self _ _))
    have hv1 : ∀ s' ∈ r, ∀ p ∈ s'.keys, (p.Get p1).isSome = true := by
      intro s' hs' p hp
      rw [hs1.1.isSome]
      exact hv s' (List.mem_cons_of_mem _ hs') p hp
    obtain ⟨p2, h2, hs2, hc2⟩ := ih p1 hv1
    refine ⟨p2, ?_, hs1.chain hs2, ?_⟩
    · simp only [List.foldlM_cons, reachesOfSet, h1, Option.bind_eq_bind, Option.some_bind]
      exact h2
    · intro x q
      rw [hc2, hc1]
      by_cases hx : x = ptr
      · simp [hx]; omega
      · simp [hx]

theorem sum_count_keys (r : List InstructionPointerSet) (p : InstructionPointer) :
    (r.map (fun s => s.keys.count p)).sum = positionsWith r p := by
  unfold positionsWith
  induction r with
  | nil => simp
  | cons s r ih =>
    rw [List.map_cons, List.sum_cons, ih, List.countP_cons]
    by_cases hp : p ∈ s.keys
    · rw [List.count_eq_one_of_mem s.nodup hp]
      simp [hp]; omega
    · rw [List.count_eq_zero.mpr hp]
      simp [hp]

theorem positionsWith_pos {r : List InstructionPointerSet} {p : InstructionPointer}
    {s : InstructionPointerSet} (hs : s ∈ r) (hp : p ∈ s.keys) : 0 < positionsWith r p := by
  unfold positionsWith
  rw [List.countP_pos_iff]
  exact ⟨s, hs, by simpa using hp⟩

theorem reachesOfInst_spec (T : OpcodeTable) (b i : Nat) (prog : Program)
    (hi : (InstructionPointer.Get prog ⟨b, i⟩).isSome = true)
    (hv : ∀ p, consumed T prog ⟨b, i⟩ p ≠ 0 → (p.Get prog).isSome = true) :
    ∃ prog', reachesOfInst T b prog i = some prog' ∧ SameFacts prog prog' ∧
      ∀ x q, (reachesOf prog' q).count x =
        (reachesOf prog q).count x + if x = ⟨b, i⟩ then consumed T prog ⟨b, i⟩ q else 0 := by
  cases hg : InstructionPointer.Get prog ⟨b, i⟩ with
  | none => simp [hg] at hi
  | some inst =>
    unfold reachesOfInst
    simp only [hg]
    by_cases hsd : (T.IsSwap inst.Op || T.IsDup inst.Op) = true
    · refine ⟨prog, by simp only [hsd, if_true], SameFacts.same prog, ?_⟩
      intro x q
      simp [consumed, hg, hsd]
    · simp only [hsd, if_false]
      cases hr : (inst.Annotations.Get .reaching : ReachingDefinition) with
      | none =>
        refine ⟨prog, rfl, SameFacts.same prog, ?_⟩
        intro x q
        simp [consumed, hg, hsd, hr]
      | some r =>
        have hv' : ∀ s ∈ r, ∀ p ∈ s.keys, (p.Get prog).isSome = true := by
          intro s hs p hp
          apply hv p
          have := positionsWith_pos hs hp
          simp only [consumed, hg, hsd, hr]
          simp only [Bool.false_eq_true, if_false]
          omega
        obtain ⟨p2, h2, hs2, hc2⟩ := foldlM_reachesOfSet ⟨b, i⟩ r prog hv'
        refine ⟨p2, h2, hs2, ?_⟩
        intro x q
        rw [hc2, sum_count_keys]
        simp [consumed, hg, hsd, hr]

theorem foldlM_reachesOfInst (T : OpcodeTable) (b : Nat) (n : Nat) (prog : Program)
    (hn : n ≤ prog.size b)
    (hv : ∀ q p, consumed T prog q p ≠ 0 → (p.Get prog).isSome = true) :
    ∃ prog', (List.range n).foldlM (reachesOfInst T b) prog = some prog' ∧
      SameFacts prog prog' ∧
      ∀ x q, (reachesOf prog' q).count x =
        (reachesOf prog q).count x +
          if x.OriginBlock = b ∧ x.OriginIndex < n then consumed T prog x q else 0 := by
  induction n with
  | zero => exact ⟨prog, rfl, SameFacts.same prog, by simp⟩
  | succ n ih =>
    obtain ⟨p1, h1, hs1, hc1⟩ := ih (by omega)
    have hi : (InstructionPointer.Get p1 ⟨b, n⟩).isSome = true := by
      rw [hs1.1.isSome]
      exact Get_size (by omega)
    have hv1 : ∀ p, consumed T p1 ⟨b, n⟩ p ≠ 0 → (p.Get p1).isSome = true := by
      intro p hp
      rw [hs1.1.isSome]
      rw [hs1.consumed T] at hp
      exact hv _ p hp
    obtain ⟨p2, h2, hs2, hc2⟩ := reachesOfInst_spec T b n p1 hi hv1
    refine ⟨p2, ?_, hs1.chain hs2, ?_⟩
    · rw [List.range_succ, List.foldlM_append, h1]
      simp only [Option.bind_eq_bind, Option.some_bind, List.foldlM_cons, h2, List.foldlM_nil]
      rfl
    · intro x q
      rw [hc2, hc1, hs1.consumed T]
      by_cases hx : x = ⟨b, n⟩
      · subst hx
        simp
      · have hne : ¬ (x.OriginBlock = b ∧ x.OriginIndex = n) := by
          intro h
          apply hx
          cases x
          simp_all
        by_cases hb : x.OriginBlock = b
        · have hidx : x.OriginIndex ≠ n := fun h => hne ⟨hb, h⟩
          have hiff : x.OriginIndex < n + 1 ↔ x.OriginIndex < n := by omega
          simp [hx, hb, hiff]
        · simp [hx, hb]

theorem reachesOfBlock_spec (T : OpcodeTable) (b : Nat) (prog : Program)
    (hv : ∀ q p, consumed T prog q p ≠ 0 → (p.Get prog).isSome = true) :
    ∃ prog', reachesOfBlock T prog b = some prog' ∧ SameFacts prog prog' ∧
      ∀ x q, (reachesOf prog' q).count x =
        (reachesOf prog q).count x + if x.OriginBlock = b then consumed T prog x q else 0 := by
  obtain ⟨p1, h1, hs1, hc1⟩ := foldlM_reachesOfInst T b (prog.size b) prog (Nat.le_refl _) hv
  refine ⟨p1, h1, hs1, ?_⟩
  intro x q
  rw [hc1]
  by_cases hb : x.OriginBlock = b
  · by_cases hc : consumed T prog x q = 0
    · simp [hc]
    · have := (consumed_pos_block hc).2
      rw [hb] at this
      simp [hb, this]
  · simp [hb]

theorem foldlM_reachesOfBlock (T : OpcodeTable) (n : Nat) (prog : Program)
    (hv : ∀ q p, consumed T prog q p ≠ 0 → (p.Get prog).isSome = true) :
    ∃ prog', (List.range n).foldlM (reachesOfBlock T) prog = some prog' ∧
      SameFacts prog prog' ∧
      ∀ x q, (reachesOf prog' q).count x =
        (reachesOf prog q).count x + if x.OriginBlock < n then consumed T prog x q else 0 := by
  induction n with
  | zero => exact ⟨prog, rfl, SameFacts.same prog, by simp⟩
  | succ n ih =>
    obtain ⟨p1, h1, hs1, hc1⟩ := ih
    have hv1 : ∀ q p, consumed T p1 q p ≠ 0 → (p.Get p1).isSome = true := by
      intro q p hp
      rw [hs1.1.isSome]
      rw [hs1.consumed T] at hp
      exact hv q p hp
    obtain ⟨p2, h2, hs2, hc2⟩ := reachesOfBlock_spec T n p1 hv1
    refine ⟨p2, ?_, hs1.chain hs2, ?_⟩
    · rw [List.range_succ, List.foldlM_append, h1]
      simp only [Option.bind_eq_bind, Option.some_bind, List.foldlM_cons, h2, List.foldlM_nil]
      rfl
    · intro x q
      rw [hc2, hc1, hs1.consumed T]
      by_cases hb : x.OriginBlock = n
      · have : ¬ x.OriginBlock < n := by omega
        simp [hb]
      · have hiff : x.OriginBlock < n + 1 ↔ x.OriginBlock < n := by omega
        simp [hb, hiff]

/-- The Reaches Definitions that `PerformReachesAnalysis` builds: it returns
when every pointer consumed by an instruction denotes an instruction, it leaves
the code and the Reaching Definitions as they are, and it adds `consumed q p`
occurrences of `q` to the Reaches Definition of `p`. -/
theorem PerformReachesAnalysis_count (T : OpcodeTable) (prog : Program)
    (hv : ∀ q p, consumed T prog q p ≠ 0 → (p.Get prog).isSome = true) :
    ∃ prog', PerformReachesAnalysis T prog = some prog' ∧ SameFacts prog prog' ∧
      ∀ q p, (reachesOf prog' p).count q = (reachesOf prog p).count q + consumed T prog q p := by
  obtain ⟨p1, h1, hs1, hc1⟩ := foldlM_reachesOfBlock T prog.Blocks.length prog hv
  refine ⟨p1, h1, hs1, ?_⟩
  intro q p
  rw [hc1]
  by_cases hc : consumed T prog q p = 0
  · simp [hc]
  · simp [(consumed_pos_block hc).1]

/-- C8, as the code has it. Reaches duality for the instructions that are
neither dup nor swap: on a program without Reaches Definitions in which every
pointer of a Reaching Definition denotes an instruction,
`PerformReachesAnalysis` returns, and for every instruction `q` that is
neither dup-class nor swap-class and every pointer `p` in the Reaching
Definition `r` of `q`, the Reaches Definition of `p` contains `q`, as many
times as `r` has operand positions whose set contains `p`. -/
theorem PerformReachesAnalysis_duality (T : OpcodeTable) (prog : Program)
    (q p : InstructionPointer) (op : OpCode) (r : List InstructionPointerSet)
    (hnone : ∀ x, reachesOf prog x = [])
    (hvalid : ∀ q' r' s x, reachingOf prog q' = some r' → s ∈ r' → x ∈ s.keys →
      (x.Get prog).isSome = true)
    (hq : opOf prog q = some op)
    (hdup : T.IsDup op = false) (hswap : T.IsSwap op = false)
    (hr : reachingOf prog q = some r)
    (hp : ∃ s ∈ r, p ∈ s.keys) :
    ∃ prog', PerformReachesAnalysis T prog = some prog' ∧
      reachingOf prog' q = some r ∧
      q ∈ reachesOf prog' p ∧
      (reachesOf prog' p).count q = positionsWith r p := by
  have hv : ∀ q' x, consumed T prog q' x ≠ 0 → (x.Get prog).isSome = true := by
    intro q' x hc
    unfold consumed at hc
    cases hg : q'.Get prog with
    | none => simp [hg] at hc
    | some inst' =>
      simp only [hg] at hc
      split at hc
      · exact absurd rfl hc
      · cases hr' : (inst'.Annotations.Get .reaching : ReachingDefinition) with
        | none => simp [hr'] at hc
        | some r' =>
          simp only [hr'] at hc
          have hpos : 0 < positionsWith r' x := Nat.pos_of_ne_zero hc
          unfold positionsWith at hpos
          rw [List.countP_pos_iff] at hpos
          obtain ⟨s, hs, hx⟩ := hpos
          exact hvalid q' r' s x (by simp only [reachingOf, hg, hr']) hs (by simpa using hx)
  obtain ⟨prog', h1, hs, hc⟩ := PerformReachesAnalysis_count T prog hv
  have hcons : consumed T prog q p = positionsWith r p := by
    unfold consumed
    cases hg : q.Get prog with
    | none => simp [opOf, hg] at hq
    | some inst =>
      simp only [opOf, hg, Option.map_some', Option.some.injEq] at hq
      simp only [reachingOf, hg] at hr
      simp only [hq, hswap, hdup, Bool.or_self, Bool.false_eq_true, if_false, hr]
  have hcount : (reachesOf prog' p).count q = positionsWith r p := by
    rw [hc, hnone, hcons]
    simp
  refine ⟨prog', h1, by rw [hs.2, hr], ?_, hcount⟩
  obtain ⟨s, hs', hp'⟩ := hp
  have := positionsWith_pos hs' hp'
  exact List.count_pos_iff.mp (by omega)

theorem PerformReachesAnalysis_duality_witness :
    reachingOf progAddReached ⟨0, 2⟩ =
      some [InstructionPointerSet.singleton ⟨0, 1⟩, InstructionPointerSet.singleton ⟨0, 0⟩] ∧
    ∃ prog', PerformReachesAnalysis evm progAddReached = some prog' ∧
      reachingOf prog' ⟨0, 2⟩ =
        some [InstructionPointerSet.singleton ⟨0, 1⟩, InstructionPointerSet.singleton ⟨0, 0⟩] ∧
      (⟨0, 2⟩ : InstructionPointer) ∈ reachesOf prog' ⟨0, 0⟩ ∧
      (reachesOf prog' ⟨0, 0⟩).count ⟨0, 2⟩ =
        positionsWith
          [InstructionPointerSet.singleton ⟨0, 1⟩, InstructionPointerSet.singleton ⟨0, 0⟩]
          ⟨0, 0⟩ :=
  ⟨by decide,
   PerformReachesAnalysis_duality evm progAddReached ⟨0, 2⟩ ⟨0, 0⟩ 0x01
    [InstructionPointerSet.singleton ⟨0, 1⟩, InstructionPointerSet.singleton ⟨0, 0⟩]
    (by
      intro x
      match x with
      | ⟨0, 0⟩ => rfl
      | ⟨0, 1⟩ => rfl
      | ⟨0, 2⟩ => rfl
      | ⟨0, n + 3⟩ => rfl
      | ⟨b + 1, i⟩ => rfl)
    (by
      intro q' r' s x h1 h2 h3
      match q', h1 with
      | ⟨0, 0⟩, h1 =>
        have e : reachingOf progAddReached ⟨0, 0⟩ = some [] := by decide
        rw [e] at h1
        cases h1
        simp at h2
      | ⟨0, 1⟩, h1 =>
        have e : reachingOf progAddReached ⟨0, 1⟩ = some [] := by decide
        rw [e] at h1
        cases h1
        simp at h2
      | ⟨0, 2⟩, h1 =>
        have e : reachingOf progAddReached ⟨0, 2⟩ =
            some [InstructionPointerSet.singleton ⟨0, 1⟩,
              InstructionPointerSet.singleton ⟨0, 0⟩] := by decide
        rw [e] at h1
        cases h1
        simp only [List.mem_cons, List.mem_singleton, List.not_mem_nil, or_false] at h2
        rcases h2 with h2 | h2 <;> subst h2 <;>
          simp [InstructionPointerSet.singleton, InstructionPointerSet.add,
            InstructionPointerSet.empty] at h3 <;> subst h3 <;> rfl
      | ⟨0, n + 3⟩, h1 =>
        have e : reachingOf progAddReached ⟨0, n + 3⟩ = none := rfl
        rw [e] at h1
        cases h1
      | ⟨b + 1, i⟩, h1 =>
        have e : reachingOf progAddReached ⟨b + 1, i⟩ = none := rfl
        rw [e] at h1
        cases h1)
    (by decide) (by decide) (by decide) (by decide)
    ⟨InstructionPointerSet.singleton ⟨0, 0⟩, by simp, by decide⟩⟩

/-- C8 as stated fails for a dup: in `PUSH1 5; DUP1` the Reaching Definition
of the DUP1 at index 1 holds the pointer to the PUSH1 at index 0, and after
`PerformReachesAnalysis` the Reaches Definition of the PUSH1 is empty. -/
theorem PerformReachesAnalysis_duality_counterexample :
    opOf progDup ⟨0, 1⟩ = some 0x80 ∧
      reachingOf progDup ⟨0, 1⟩ = some [InstructionPointerSet.singleton ⟨0, 0⟩] ∧
      reachesOf progDup ⟨0, 0⟩ = [] ∧ reachesOf progDup ⟨0, 1⟩ = [] ∧
      (PerformReachesAnalysis evm progDup).map (fun prog' => reachesOf prog' ⟨0, 0⟩) =
        some [] := by
  decide

/-! ## The fact store -/

theorem faults_reaching (tym : TypeMap) : tym.faults .reaching = false := by
  unfold TypeMap.faults
  cases tym.data .reaching <;> rfl

theorem faults_reaches (tym : TypeMap) : tym.faults .reaches = false := by
  unfold TypeMap.faults
  cases tym.data .reaches <;> rfl

/-- C14 fails on the code for the nil value of an interface type: after
`Set` of a nil `Expression` the store holds the nil `interface{}` under the key
`Expression`, and `Get` for `Expression` faults instead of yielding nil. -/
theorem TypeMap_Get_after_Set_nil :
    (NewTypeMap.Set .expression (none : Option Expression)).faults .expression = true ∧
      (NewTypeMap.Set .expression (none : Option Expression)).Get? .expression = none := by
  constructor <;> rfl

theorem Pop_fst (tym : TypeMap) (t : FactType) : (tym.Pop t).1 = tym.Get t := by
  unfold TypeMap.Pop TypeMap.Get
  cases tym.data t <;> rfl

theorem Pop_data_same (tym : TypeMap) (t : FactType) : (tym.Pop t).2.data t = none := by
  unfold TypeMap.Pop
  cases h : tym.data t with
  | none => exact h
  | some v => simp

theorem Pop_data_ne (tym : TypeMap) {t t' : FactType} (h : t' ≠ t) :
    (tym.Pop t).2.data t' = tym.data t' := by
  unfold TypeMap.Pop
  cases tym.data t with
  | none => rfl
  | some v => simp [Function.update_noteq h]

/-- `Pop` against `Get`: `Pop` for `t` yields exactly what `Get` for `t` yields
on the same store, the stored fact or the zero value, and faults exactly when
`Get` does; after a `Pop` that returns, no fact is stored for `t`, `Get` for
`t` yields the zero value, and the facts stored for every other type are the
ones stored before. -/
theorem TypeMap_Pop_spec (tym : TypeMap) (t : FactType) :
    (tym.Pop? t).map Prod.fst = tym.Get? t ∧
      ∀ value tym', tym.Pop? t = some (value, tym') →
        value = tym.Get t ∧ tym'.data t = none ∧ tym'.Get? t = some t.zero ∧
          ∀ t', t' ≠ t → tym'.data t' = tym.data t' ∧ tym'.Get? t' = tym.Get? t' := by
  constructor
  · unfold TypeMap.Pop? TypeMap.Get?
    cases tym.faults t <;> simp [Pop_fst]
  · intro value tym' h
    unfold TypeMap.Pop? at h
    cases hf : tym.faults t with
    | true => simp [hf] at h
    | false =>
      simp only [hf, Bool.false_eq_true, if_false, Option.some.injEq] at h
      have h1 : value = (tym.Pop t).1 := by rw [h]
      have h2 : tym' = (tym.Pop t).2 := by rw [h]
      subst h2
      refine ⟨by rw [h1, Pop_fst], Pop_data_same tym t, ?_, ?_⟩
      · simp [TypeMap.Get?, TypeMap.faults, TypeMap.Get, Pop_data_same]
      · intro t' ht'
        refine ⟨Pop_data_ne tym ht', ?_⟩
        simp [TypeMap.Get?, TypeMap.faults, TypeMap.Get, Pop_data_ne tym ht']

theorem TypeMap_Pop_spec_witness :
    ((NewTypeMap.Set .reaches ([⟨0, 2⟩] : ReachesDefinition)).Pop? .reaches).map Prod.fst =
        some ([⟨0, 2⟩] : ReachesDefinition) ∧
      ((NewTypeMap.Set .reaches ([⟨0, 2⟩] : ReachesDefinition)).Pop .reaches).2.Get? .reaches =
        some ([] : ReachesDefinition) :=
  ⟨rfl,
   ((TypeMap_Pop_spec (NewTypeMap.Set .reaches ([⟨0, 2⟩] : ReachesDefinition)) .reaches).2
      ([⟨0, 2⟩] : ReachesDefinition)
      ((NewTypeMap.Set .reaches ([⟨0, 2⟩] : ReachesDefinition)).Pop .reaches).2 rfl).2.2.1⟩

/-- C15 fails on the code for the stored nil interface of C14: after `Set` of
a nil `Expression`, `Pop` for `Expression` faults in the assignment to the
destination, before its `delete`. The fact is still stored, so `Get` for
`Expression` does not yield the zero value afterwards: it faults as it did
before the `Pop`. -/
theorem TypeMap_Pop_after_Set_nil :
    (NewTypeMap.Set .expression (none : Option Expression)).Pop? .expression = none ∧
      (NewTypeMap.Set .expression (none : Option Expression)).data .expression =
        some (none : Option Expression) ∧
      (NewTypeMap.Set .expression (none : Option Expression)).Get? .expression ≠
        some FactType.expression.zero := by
  refine ⟨rfl, ?_, ?_⟩
  · simp [TypeMap.Set]
  · rw [show (NewTypeMap.Set .expression (none : Option Expression)).Get? .expression = none
      from rfl]
    exact fun h => Option.noConfusion h

/-! ## The end of the block and the default case -/

theorem walkFrom_snoc (T : OpcodeTable) (b : Nat) (k i : Nat) (prog : Program) (w : Walk) :
    walkFrom T b (k + 1) i prog w =
      match walkFrom T b k i prog w with
      | none => none
      | some (p1, w1) =>
        match body T b (i + k) p1 w1 with
        | .cont p w' => some (p, w')
        | .stop _ _ => none := by
  induction k generalizing i prog w with
  | zero =>
    simp only [walkFrom, Nat.add_zero]
  | succ k ih =>
    rw [walkFrom]
    cases hs : body T b i prog w with
    | cont p1 w1 =>
      simp only
      rw [ih]
      have hi : i + 1 + k = i + (k + 1) := by omega
      simp only [walkFrom, hs, hi]
    | stop p1 out => simp only [walkFrom, hs]

theorem walkAt_succ {T : OpcodeTable} {prog prog' : Program} {instr : reachingState} {j : Nat}
    {c : Operands} (h : reachedSwitch T prog instr j = some (prog', c)) :
    walkAt T prog instr (j + 1) =
      match dispatch T instr.nextBlock j prog' c with
      | .cont _ w' => some w'
      | .stop _ _ => none := by
  unfold reachedSwitch at h
  cases hr : reached T prog instr j with
  | none => simp [hr] at h
  | some r =>
    obtain ⟨p1, w1⟩ := r
    simp only [hr] at h
    unfold reached at hr
    unfold walkAt reached
    cases he : entry prog instr with
    | none => simp [he] at hr
    | some r0 =>
      obtain ⟨p0, w0⟩ := r0
      simp only [he] at hr ⊢
      rw [walkFrom_snoc, hr]
      simp only [Nat.zero_add, body, h]
      cases dispatch T instr.nextBlock j prog' c <;> rfl

/-- C17. Fallthrough at block end: when the walk makes all iterations of the
block and leaves the loop with the running stack `w.st`, `Advance` returns
exactly one successor state, at `Next` and carrying `w.st`, when the block has
a fallthrough successor, and no successor state otherwise; for a block without
instructions `w.st` is the entry stack. -/
theorem Advance_fallthrough (T : OpcodeTable) (prog : Program) (instr : reachingState)
    (w : Walk)
    (hend : walkAt T prog instr (prog.size instr.nextBlock) = some w) :
    (∀ n, prog.next instr.nextBlock = some n → (Advance T prog instr).2 = .ok [⟨n, w.st⟩]) ∧
      (prog.next instr.nextBlock = none → (Advance T prog instr).2 = .ok []) ∧
      (prog.size instr.nextBlock = 0 → w.st = instr.stack) := by
  obtain ⟨p0, w0, p1, he, hw⟩ := walkAt_some hend
  have hsame : SameCode prog p1 := (entry_SameCode he).trans (walkFrom_SameCode hw)
  have hadv : Advance T prog instr = loop T instr.nextBlock 0 (prog.size instr.nextBlock) p1 w := by
    unfold Advance
    simp only [he]
    have := loop_walkFrom 0 hw
    simpa using this
  refine ⟨?_, ?_, ?_⟩
  · intro n hn
    rw [hadv, loop, hsame.next, hn]
  · intro hn
    rw [hadv, loop, hsame.next, hn]
  · intro h0
    rw [h0] at hw
    simp only [walkFrom, Option.some.injEq, Prod.mk.injEq] at hw
    rw [← hw.2]
    exact (entry_pc T he).2

theorem Advance_fallthrough_witness :
    walkAt evm progPush ⟨0, []⟩ (progPush.size 0) = some ⟨2, [⟨0, 0⟩]⟩ ∧
      (Advance evm progPush ⟨0, []⟩).2 = .ok [⟨1, [⟨0, 0⟩]⟩] :=
  ⟨by decide,
   (Advance_fallthrough evm progPush ⟨0, []⟩ ⟨2, [⟨0, 0⟩]⟩ (by decide)).1 1 (by decide)⟩

theorem dispatch_other {T : OpcodeTable} {b i : Nat} {prog : Program} {c : Operands}
    (h : classify T c.op = .other) :
    dispatch T b i prog c =
      if T.StackWrites c.op = 1 then proceed T prog c (stack.NewFrame c.newStack ⟨b, i⟩)
      else if T.StackWrites c.op > 1 then
        .stop prog (.error (.unexpectedWrites c.op (T.StackWrites c.op)))
      else proceed T prog c c.newStack := by
  simp only [dispatch, h]

theorem proceed_low {T : OpcodeTable} {prog : Program} {c : Operands} (s : StackFrame)
    (h : stack.Height c.st ≤ 1024) :
    proceed T prog c s =
      .cont prog ⟨wrapInt (c.pc + wrapInt (T.OperandSize c.op + 1)), s⟩ := by
  unfold proceed
  have : ¬ stack.Height c.st > 1024 := by omega
  simp only [this, if_false]

theorem proceed_high {T : OpcodeTable} {prog : Program} {c : Operands} (s : StackFrame)
    (h : 1024 < stack.Height c.st) : proceed T prog c s = .stop prog (.ok []) := by
  unfold proceed
  simp only [gt_iff_lt, h, if_true]

theorem Advance_of_proceed {T : OpcodeTable} {prog prog' : Program} {instr : reachingState}
    {j : Nat} {c : Operands} {s : StackFrame}
    (h : reachedSwitch T prog instr j = some (prog', c))
    (hd : dispatch T instr.nextBlock j prog' c = proceed T prog' c s) :
    (stack.Height c.st ≤ 1024 →
      walkAt T prog instr (j + 1) =
        some ⟨wrapInt (c.pc + wrapInt (T.OperandSize c.op + 1)), s⟩) ∧
    (1024 < stack.Height c.st → (Advance T prog instr).2 = .ok []) := by
  constructor
  · intro hl
    rw [walkAt_succ h, hd, proceed_low s hl]
  · intro hh
    rw [proceed_high s hh] at hd
    rw [Advance_of_switch_stop h hd]

/-- C16. Invalid opcode stack effect: when the walk reaches the `switch` at an
instruction that is none of terminator, push, dup, swap, JUMP, JUMPI, the call
ends at that instruction with an error if and only if `StackWrites` is greater
than 1, and the error is the invalid-stack-effect one, with no successor
states. When `StackWrites` is 1 the new running stack is the stack `Popn` left
with the pointer to this instruction pushed, when it is 0 it is the stack
`Popn` left, and the walk goes on to the next instruction unless the height
check abandons the path. At a dup or a swap the call never ends with an
error. -/
theorem Advance_default_case (T : OpcodeTable) (prog : Program) (instr : reachingState)
    (j : Nat) (c : Operands)
    (hreach : switchAt T prog instr j = some c) :
    (classify T c.op = .other →
      ((walkAt T prog instr (j + 1) = none ∧ ∃ e, (Advance T prog instr).2 = .error e) ↔
        1 < T.StackWrites c.op) ∧
      (1 < T.StackWrites c.op →
        (Advance T prog instr).2 = .error (.unexpectedWrites c.op (T.StackWrites c.op)) ∧
        (Advance T prog instr).2.states = []) ∧
      (T.StackWrites c.op = 1 → stack.Height c.st ≤ 1024 →
        walkAt T prog instr (j + 1) =
          some ⟨wrapInt (c.pc + wrapInt (T.OperandSize c.op + 1)),
            stack.NewFrame c.newStack ⟨instr.nextBlock, j⟩⟩) ∧
      (T.StackWrites c.op = 0 → stack.Height c.st ≤ 1024 →
        walkAt T prog instr (j + 1) =
          some ⟨wrapInt (c.pc + wrapInt (T.OperandSize c.op + 1)), c.newStack⟩) ∧
      (T.StackWrites c.op ≤ 1 → 1024 < stack.Height c.st →
        (Advance T prog instr).2 = .ok [])) ∧
    (classify T c.op = .dup ∨ classify T c.op = .swap →
      ¬ (walkAt T prog instr (j + 1) = none ∧ ∃ e, (Advance T prog instr).2 = .error e)) := by
  obtain ⟨prog', hsw⟩ := switchAt_some hreach
  constructor
  · intro hop
    have hd := @dispatch_other T instr.nextBlock j prog' c hop
    have hbig : 1 < T.StackWrites c.op →
        (Advance T prog instr).2 = .error (.unexpectedWrites c.op (T.StackWrites c.op)) ∧
        walkAt T prog instr (j + 1) = none := by
      intro hw
      have h1 : ¬ T.StackWrites c.op = 1 := by omega
      have h2 : T.StackWrites c.op > 1 := hw
      simp only [h1, h2, if_false, if_true] at hd
      exact ⟨by rw [Advance_of_switch_stop hsw hd], by rw [walkAt_succ hsw, hd]⟩
    have hone : T.StackWrites c.op = 1 →
        dispatch T instr.nextBlock j prog' c =
          proceed T prog' c (stack.NewFrame c.newStack ⟨instr.nextBlock, j⟩) := by
      intro hw
      simp only [hw, if_true] at hd
      exact hd
    have hzero : T.StackWrites c.op = 0 →
        dispatch T instr.nextBlock j prog' c = proceed T prog' c c.newStack := by
      intro hw
      have h1 : ¬ T.StackWrites c.op = 1 := by omega
      have h2 : ¬ T.StackWrites c.op > 1 := by omega
      simp only [h1, h2, if_false] at hd
      exact hd
    have hsmall : T.StackWrites c.op ≤ 1 →
        ∃ s, dispatch T instr.nextBlock j prog' c = proceed T prog' c s := by
      intro hw
      by_cases h1 : T.StackWrites c.op = 1
      · exact ⟨_, hone h1⟩
      · exact ⟨_, hzero (by omega)⟩
    refine ⟨⟨?_, ?_⟩, ?_, ?_, ?_, ?_⟩
    · rintro ⟨hnone, e, he⟩
      by_contra hle
      obtain ⟨s, hs⟩ := hsmall (by omega)
      have hp := Advance_of_proceed hsw hs
      by_cases hh : 1024 < stack.Height c.st
      · rw [hp.2 hh] at he
        exact absurd he (by simp)
      · rw [hp.1 (by omega)] at hnone
        exact absurd hnone (by simp)
    · intro hw
      exact ⟨(hbig hw).2, _, (hbig hw).1⟩
    · intro hw
      exact ⟨(hbig hw).1, by rw [(hbig hw).1]; rfl⟩
    · intro hw hl
      exact (Advance_of_proceed hsw (hone hw)).1 hl
    · intro hw hl
      exact (Advance_of_proceed hsw (hzero hw)).1 hl
    · intro hw hh
      obtain ⟨s, hs⟩ := hsmall hw
      exact (Advance_of_proceed hsw hs).2 hh
  · rintro hop ⟨hnone, e, he⟩
    rw [walkAt_succ hsw] at hnone
    cases hd : dispatch T instr.nextBlock j prog' c with
    | cont p w' => simp [hd] at hnone
    | stop p out =>
      rw [Advance_of_switch_stop hsw hd] at he
      simp only at he
      subst he
      have hcls : classify T c.op ≠ .other ∧ classify T c.op ≠ .jump ∧
          classify T c.op ≠ .jumpi := by
        rcases hop with h | h <;> simp [h]
      unfold dispatch at hd
      split at hd
      · simp at hd
      · exact absurd hd (by unfold proceed; split <;> simp)
      · split at hd
        · simp at hd
        · exact absurd hd (by unfold proceed; split <;> simp)
      · split at hd
        · simp at hd
        · exact absurd hd (by unfold proceed; split <;> simp)
      · rename_i hc
        exact hcls.2.1 hc
      · rename_i hc
        exact hcls.2.2 hc
      · rename_i hc
        exact hcls.1 hc

theorem Advance_default_case_witness :
    switchAt evm progAdd ⟨0, []⟩ 2 = some ⟨4, [⟨0, 1⟩, ⟨0, 0⟩], 0x01, [⟨0, 1⟩, ⟨0, 0⟩], []⟩ ∧
      walkAt evm progAdd ⟨0, []⟩ 3 = some ⟨5, [⟨0, 2⟩]⟩ :=
  ⟨by decide,
   (Advance_default_case evm progAdd ⟨0, []⟩ 2
      ⟨4, [⟨0, 1⟩, ⟨0, 0⟩], 0x01, [⟨0, 1⟩, ⟨0, 0⟩], []⟩ (by decide)).1 (by decide)
      |>.2.2.1 (by decide) (by decide)⟩

/-! ## Dup and swap -/

theorem Swap_at (s : StackFrame) (m : Nat) (hlt : m < s.length) :
    ∃ s', stack.Swap s m = some s' ∧ s'.length = s.length ∧
      s'[0]? = s[m]? ∧ s'[m]? = s[0]? ∧
      ∀ k, k ≠ 0 → k ≠ m → s'[k]? = s[k]? := by
  have h0 : 0 < s.length := by omega
  have hhead : s.head? = some s[0] := by
    cases s with
    | nil => simp at h0
    | cons a t => rfl
  have hdeep : s[m]? = some s[m] := List.getElem?_eq_getElem hlt
  refine ⟨(s.set m s[0]).set 0 s[m], ?_, by simp, ?_, ?_, ?_⟩
  · simp only [stack.Swap, hhead, hdeep]
  · rw [hdeep, List.getElem?_set]
    simp [h0]
  · by_cases hm : m = 0
    · subst hm
      rw [List.getElem?_set]
      simp [h0]
    · rw [List.getElem?_set_ne (fun h => hm h.symm), List.getElem?_set]
      simp [hlt, List.getElem?_eq_getElem h0]
  · intro k hk0 hkn
    rw [List.getElem?_set_ne (fun h => hk0 h.symm), List.getElem?_set_ne (fun h => hkn h.symm)]

theorem Swap_spec (s : StackFrame) (n : Nat) (hpos : 0 < n) (hn : n ≤ s.length) :
    ∃ s', stack.Swap s (n - 1) = some s' ∧ s'.length = s.length ∧
      s'[0]? = s[n - 1]? ∧ s'[n - 1]? = s[0]? ∧
      ∀ k, k ≠ 0 → k ≠ n - 1 → s'[k]? = s[k]? :=
  Swap_at s (n - 1) (by omega)

/-- C13. Dup/Swap transparency: for every running stack `c.st` that holds at
least the `n` values a dup or swap reads (at least one), the dup case of the
`switch` hands on the stack `NewFrame(c.st, v)` with `v` the value at depth
`n - 1` of `c.st`: nothing is removed and `v` is the new top. The swap case
hands on a stack of the same height in which the values at depth 0 and at
depth `n - 1` are exchanged and every other depth is as in `c.st`. -/
theorem dispatch_dup_swap (T : OpcodeTable) (b i : Nat) (prog : Program) (c : Operands)
    (n : Nat) (hn : T.StackReads c.op = n) (hpos : 0 < n) (hdeep : n ≤ stack.Height c.st) :
    (classify T c.op = .dup →
      ∃ v, c.st[n - 1]? = some v ∧
        dispatch T b i prog c = proceed T prog c (stack.NewFrame c.st v) ∧
        stack.Height (stack.NewFrame c.st v) = stack.Height c.st + 1 ∧
        (stack.NewFrame c.st v)[0]? = some v ∧
        ∀ k, (stack.NewFrame c.st v)[k + 1]? = c.st[k]?) ∧
    (classify T c.op = .swap →
      ∃ s', dispatch T b i prog c = proceed T prog c s' ∧
        stack.Height s' = stack.Height c.st ∧
        s'[0]? = c.st[n - 1]? ∧ s'[n - 1]? = c.st[0]? ∧
        ∀ k, k ≠ 0 → k ≠ n - 1 → s'[k]? = c.st[k]?) := by
  simp only [stack.Height] at hdeep
  constructor
  · intro hop
    have hlt : n - 1 < c.st.length := by omega
    refine ⟨c.st[n - 1], List.getElem?_eq_getElem hlt, ?_, by simp [stack.Height, stack.NewFrame],
      by simp [stack.NewFrame], by simp [stack.NewFrame]⟩
    have hv : stack.Value (stack.UpBy c.st (T.StackReads c.op - 1)) = some c.st[n - 1] := by
      simp only [stack.Value, stack.UpBy, hn, List.head?_drop]
      exact List.getElem?_eq_getElem hlt
    simp only [dispatch, hop, hv]
  · intro hop
    obtain ⟨s', hs, hlen, h0, h1, hk⟩ := Swap_spec c.st n hpos hdeep
    refine ⟨s', ?_, by simpa [stack.Height] using hlen, h0, h1, hk⟩
    simp only [dispatch, hop, hn, hs]

theorem dispatch_dup_swap_witness :
    walkAt evm progDupCode ⟨0, []⟩ 2 = some ⟨3, [⟨0, 0⟩, ⟨0, 0⟩]⟩ ∧
      walkAt evm progSwap ⟨0, [⟨7, 0⟩, ⟨7, 1⟩]⟩ 1 = some ⟨1, [⟨7, 1⟩, ⟨7, 0⟩]⟩ ∧
      ∃ v, ([⟨0, 0⟩] : StackFrame)[1 - 1]? = some v ∧
        dispatch evm 0 1 progDupCode ⟨2, [⟨0, 0⟩], 0x80, [⟨0, 0⟩], []⟩ =
          proceed evm progDupCode ⟨2, [⟨0, 0⟩], 0x80, [⟨0, 0⟩], []⟩
            (stack.NewFrame [⟨0, 0⟩] v) ∧
        stack.Height (stack.NewFrame [⟨0, 0⟩] v) = stack.Height [⟨0, 0⟩] + 1 ∧
        (stack.NewFrame [⟨0, 0⟩] v)[0]? = some v ∧
        ∀ k, (stack.NewFrame [⟨0, 0⟩] v)[k + 1]? = ([⟨0, 0⟩] : StackFrame)[k]? :=
  ⟨by decide, by decide,
   (dispatch_dup_swap evm 0 1 progDupCode ⟨2, [⟨0, 0⟩], 0x80, [⟨0, 0⟩], []⟩ 1
      (by decide) (by decide) (by decide)).1 (by decide)⟩

/-! ## The height check after an overflow -/

set_option maxRecDepth 100000 in
/-- C12 fails on the code. In `PUSH1 3; JUMP` entered with a stack of height
1024 the running height is 1025 after the PUSH1. `Advance` compares the height
of `st` before an instruction with 1024, so it goes on to the JUMP, records the
Reaching Definition of the JUMP, and returns a successor state at the jump
destination. -/
theorem Advance_overflow_not_pruned :
    (walkAt evm progPushJump ⟨0, fullStack⟩ 1).map (fun w => stack.Height w.st) = some 1025 ∧
      reachingOf progPushJump ⟨0, 1⟩ = none ∧
      reachingOf (Advance evm progPushJump ⟨0, fullStack⟩).1 ⟨0, 1⟩ =
        some [InstructionPointerSet.singleton ⟨0, 0⟩] ∧
      (Advance evm progPushJump ⟨0, fullStack⟩).2 = .ok [⟨1, fullStack⟩] := by
  decide

/-! ## The textual form of a pointer -/

/-- C18, as the code has it. The textual form of a pointer to an instruction
whose fact store holds no nil `Expression` (the store on which `Get` faults,
see C14) is decided by the `Expression` fact stored on that instruction: for an
instruction expression whose instruction is push-class it is `0x` followed by
the upper-case hexadecimal of that instruction's immediate, for a jump label it
is the label's textual form, and in every other case (no `Expression` fact, an
instruction expression that is not push-class, any other expression) it is
`@0x` followed by the upper-case hexadecimal of `GetAddress()`. -/
theorem String_spec (T : OpcodeTable) (prog : Program) (instr : InstructionPointer)
    (inst : Instruction)
    (hget : instr.Get prog = some inst)
    (hok : inst.Annotations.faults .expression = false) :
    ∃ address, instr.GetAddress T prog = some address ∧
      (∀ op arg, (inst.Annotations.Get .expression : Option Expression) =
          some (.instruction op arg) → T.IsPush op = true →
        instr.String T prog = some ("0x" ++ formatX arg)) ∧
      (∀ text, (inst.Annotations.Get .expression : Option Expression) =
          some (.jumpLabel text) →
        instr.String T prog = some text) ∧
      ((∀ op arg, (inst.Annotations.Get .expression : Option Expression) =
          some (.instruction op arg) → T.IsPush op = false) →
        (∀ text, (inst.Annotations.Get .expression : Option Expression) ≠
          some (.jumpLabel text)) →
        instr.String T prog = some ("@0x" ++ formatX address)) := by
  obtain ⟨address, haddr⟩ := GetAddress_of_Get T hget
  have hq : inst.Annotations.Get? .expression = some (inst.Annotations.Get .expression) := by
    simp [TypeMap.Get?, hok]
  refine ⟨address, haddr, ?_, ?_, ?_⟩
  · intro op arg he hp
    simp only [InstructionPointer.String, hget, hq, he, hp, if_true]
  · intro text he
    simp only [InstructionPointer.String, hget, hq, he]
  · intro h1 h2
    simp only [InstructionPointer.String, hget, hq, haddr, Option.map_some']
    cases he : (inst.Annotations.Get .expression : Option Expression) with
    | none => rfl
    | some e =>
      cases e with
      | instruction op arg =>
        have := h1 op arg he
        simp [this]
      | jumpLabel text => exact absurd he (h2 text)
      | other => rfl

theorem String_spec_witness :
    InstructionPointer.String evm progExpr ⟨0, 0⟩ = some "0xFF" ∧
      InstructionPointer.String evm progExpr ⟨0, 1⟩ = some "loop" ∧
      InstructionPointer.String evm progExpr ⟨0, 2⟩ = some "@0x13" :=
  ⟨(String_spec evm progExpr ⟨0, 0⟩
      ⟨0x60, 255, NewTypeMap.Set .expression (some (Expression.instruction 0x60 255))⟩
      rfl rfl).choose_spec.2.1 0x60 255 rfl rfl,
   by decide, by decide⟩

/-- C18 as stated fails: the pointer to the `PUSH1 5` of `progAdd`, an
instruction without an `Expression` fact, has the textual form `@0x0`, not
`0x5`. -/
theorem String_counterexample :
    opOf progAdd ⟨0, 0⟩ = some 0x60 ∧ evm.IsPush 0x60 = true ∧
      InstructionPointer.String evm progAdd ⟨0, 0⟩ = some "@0x0" ∧
      "@0x0" ≠ "0x" ++ formatX 5 := by
  decide

/-! ## Soundness of the reaches relation -/

theorem consumed_pos {T : OpcodeTable} {prog : Program} {q p : InstructionPointer}
    (h : consumed T prog q p ≠ 0) :
    ∃ op r, opOf prog q = some op ∧ T.IsDup op = false ∧ T.IsSwap op = false ∧
      reachingOf prog q = some r ∧ ∃ s ∈ r, p ∈ s.keys := by
  unfold consumed at h
  cases hg : q.Get prog with
  | none => simp [hg] at h
  | some inst =>
    simp only [hg] at h
    split at h
    · exact absurd rfl h
    · rename_i hsd
      cases hr : (inst.Annotations.Get .reaching : ReachingDefinition) with
      | none => simp [hr] at h
      | some r =>
        simp only [hr] at h
        have hpos : 0 < positionsWith r p := Nat.pos_of_ne_zero h
        unfold positionsWith at hpos
        rw [List.countP_pos_iff] at hpos
        obtain ⟨s, hs, hx⟩ := hpos
        simp only [Bool.or_eq_true, not_or, Bool.not_eq_true] at hsd
        exact ⟨inst.Op, r, by simp [opOf, hg], hsd.2, hsd.1, by simp only [reachingOf, hg, hr],
          s, hs, by simpa using hx⟩

theorem consumed_valid {T : OpcodeTable} {prog : Program}
    (hvalid : ∀ q r s x, reachingOf prog q = some r → s ∈ r → x ∈ s.keys →
      (x.Get prog).isSome = true) :
    ∀ q p, consumed T prog q p ≠ 0 → (p.Get prog).isSome = true := by
  intro q p h
  obtain ⟨op, r, -, -, -, hr, s, hs, hp⟩ := consumed_pos h
  exact hvalid q r s p hr hs hp

/-- C19. The reaches relation is sound and excludes dup and swap: on a program
without Reaches Definitions in which every pointer of a Reaching Definition
denotes an instruction, `PerformReachesAnalysis` returns, and every pointer `q`
in the Reaches Definition of `p` denotes an instruction that is neither
dup-class nor swap-class and whose Reaching Definition holds `p` in some
operand position. An instruction that is in no Reaching Definition of such an
instruction gets an empty Reaches Definition. -/
theorem PerformReachesAnalysis_sound (T : OpcodeTable) (prog : Program)
    (hnone : ∀ x, reachesOf prog x = [])
    (hvalid : ∀ q r s x, reachingOf prog q = some r → s ∈ r → x ∈ s.keys →
      (x.Get prog).isSome = true) :
    ∃ prog', PerformReachesAnalysis T prog = some prog' ∧
      (∀ p q, q ∈ reachesOf prog' p →
        ∃ op r, opOf prog q = some op ∧ T.IsDup op = false ∧ T.IsSwap op = false ∧
          reachingOf prog' q = some r ∧ ∃ s ∈ r, p ∈ s.keys) ∧
      (∀ p, (∀ q op r s, opOf prog q = some op → T.IsDup op = false → T.IsSwap op = false →
          reachingOf prog q = some r → s ∈ r → p ∉ s.keys) →
        reachesOf prog' p = []) := by
  obtain ⟨prog', h1, hs, hc⟩ := PerformReachesAnalysis_count T prog (consumed_valid hvalid)
  have hsound : ∀ p q, q ∈ reachesOf prog' p →
      ∃ op r, opOf prog q = some op ∧ T.IsDup op = false ∧ T.IsSwap op = false ∧
        reachingOf prog q = some r ∧ ∃ s ∈ r, p ∈ s.keys := by
    intro p q hq
    have hpos := List.count_pos_iff.mpr hq
    rw [hc, hnone] at hpos
    simp only [List.count_nil, Nat.zero_add] at hpos
    exact consumed_pos (by omega)
  refine ⟨prog', h1, ?_, ?_⟩
  · intro p q hq
    obtain ⟨op, r, h2, h3, h4, h5, h6⟩ := hsound p q hq
    exact ⟨op, r, h2, h3, h4, by rw [hs.2, h5], h6⟩
  · intro p hp
    apply List.eq_nil_iff_forall_not_mem.mpr
    intro q hq
    obtain ⟨op, r, h2, h3, h4, h5, s, h6, h7⟩ := hsound p q hq
    exact hp q op r s h2 h3 h4 h5 h6 h7

theorem progAddReached_no_reaches : ∀ x, reachesOf progAddReached x = [] := by
  intro x
  match x with
  | ⟨0, 0⟩ => rfl
  | ⟨0, 1⟩ => rfl
  | ⟨0, 2⟩ => rfl
  | ⟨0, n + 3⟩ => rfl
  | ⟨b + 1, i⟩ => rfl

theorem progAddReached_valid : ∀ q r s x, reachingOf progAddReached q = some r → s ∈ r →
    x ∈ s.keys → (x.Get progAddReached).isSome = true := by
  intro q' r' s x h1 h2 h3
  match q', h1 with
  | ⟨0, 0⟩, h1 =>
    have e : reachingOf progAddReached ⟨0, 0⟩ = some [] := by decide
    rw [e] at h1
    cases h1
    simp at h2
  | ⟨0, 1⟩, h1 =>
    have e : reachingOf progAddReached ⟨0, 1⟩ = some [] := by decide
    rw [e] at h1
    cases h1
    simp at h2
  | ⟨0, 2⟩, h1 =>
    have e : reachingOf progAddReached ⟨0, 2⟩ =
        some [InstructionPointerSet.singleton ⟨0, 1⟩,
          InstructionPointerSet.singleton ⟨0, 0⟩] := by decide
    rw [e] at h1
    cases h1
    simp only [List.mem_cons, List.mem_singleton, List.not_mem_nil, or_false] at h2
    rcases h2 with h2 | h2 <;> subst h2 <;>
      simp [InstructionPointerSet.singleton, InstructionPointerSet.add,
        InstructionPointerSet.empty] at h3 <;> subst h3 <;> rfl
  | ⟨0, n + 3⟩, h1 =>
    have e : reachingOf progAddReached ⟨0, n + 3⟩ = none := rfl
    rw [e] at h1
    cases h1
  | ⟨b + 1, i⟩, h1 =>
    have e : reachingOf progAddReached ⟨b + 1, i⟩ = none := rfl
    rw [e] at h1
    cases h1

theorem PerformReachesAnalysis_sound_witness :
    (PerformReachesAnalysis evm progAddReached).map
        (fun prog' => (reachesOf prog' ⟨0, 0⟩, reachesOf prog' ⟨0, 1⟩, reachesOf prog' ⟨0, 2⟩)) =
        some ([⟨0, 2⟩], [⟨0, 2⟩], []) ∧
      ∃ prog', PerformReachesAnalysis evm progAddReached = some prog' ∧
        (∀ p q, q ∈ reachesOf prog' p →
          ∃ op r, opOf progAddReached q = some op ∧ evm.IsDup op = false ∧
            evm.IsSwap op = false ∧ reachingOf prog' q = some r ∧ ∃ s ∈ r, p ∈ s.keys) ∧
        (∀ p, (∀ q op r s, opOf progAddReached q = some op → evm.IsDup op = false →
            evm.IsSwap op = false → reachingOf progAddReached q = some r → s ∈ r →
            p ∉ s.keys) →
          reachesOf prog' p = []) :=
  ⟨by decide,
   PerformReachesAnalysis_sound evm progAddReached progAddReached_no_reaches
    progAddReached_valid⟩

/-! ## Instruction facts over repeated calls -/

theorem recordOperands_some (rs : List InstructionPointerSet) (ops : List InstructionPointer)
    (h : ops.length ≤ rs.length) : ∃ rs', recordOperands rs ops = some rs' := by
  induction rs generalizing ops with
  | nil =>
    cases ops with
    | nil => exact ⟨[], rfl⟩
    | cons o os => simp at h
  | cons r rs ih =>
    cases ops with
    | nil => exact ⟨r :: rs, rfl⟩
    | cons o os =>
      simp only [List.length_cons, Nat.add_le_add_iff_right] at h
      obtain ⟨rs', hrs'⟩ := ih os h
      exact ⟨r.add o :: rs', by simp only [recordOperands, hrs']⟩

theorem recordOperands_length {rs rs' : List InstructionPointerSet}
    {ops : List InstructionPointer} (h : recordOperands rs ops = some rs') :
    rs'.length = rs.length := by
  induction rs generalizing ops rs' with
  | nil =>
    cases ops with
    | nil =>
      simp only [recordOperands, Option.some.injEq] at h
      rw [← h]
    | cons o os => simp [recordOperands] at h
  | cons r rs ih =>
    cases ops with
    | nil =>
      simp only [recordOperands, Option.some.injEq] at h
      rw [← h]
    | cons o os =>
      simp only [recordOperands] at h
      cases hr : recordOperands rs os with
      | none => simp [hr] at h
      | some rs1 =>
        simp only [hr, Option.some.injEq] at h
        rw [← h]
        simp [ih hr]

theorem recordOperands_getElem? {rs rs' : List InstructionPointerSet}
    {ops : List InstructionPointer} (h : recordOperands rs ops = some rs') (i : Nat) :
    rs'[i]? =
      match rs[i]?, ops[i]? with
      | some s, some o => some (s.add o)
      | some s, none => some s
      | none, _ => none := by
  induction rs generalizing ops rs' i with
  | nil =>
    cases ops with
    | nil =>
      simp only [recordOperands, Option.some.injEq] at h
      rw [← h]
      simp
    | cons o os => simp [recordOperands] at h
  | cons r rs ih =>
    cases ops with
    | nil =>
      simp only [recordOperands, Option.some.injEq] at h
      rw [← h]
      cases hi : (r :: rs)[i]? <;> simp
    | cons o os =>
      simp only [recordOperands] at h
      cases hr : recordOperands rs os with
      | none => simp [hr] at h
      | some rs1 =>
        simp only [hr, Option.some.injEq] at h
        rw [← h]
        cases i with
        | zero => simp
        | succ i =>
          simp only [List.getElem?_cons_succ]
          exact ih hr i

theorem updateReachings_spec (inst : Instruction) (operands : List InstructionPointer)
    (hlen : (inst.Annotations.Get .reaching : ReachingDefinition) = none ∨
      ReachingDefinition.len (inst.Annotations.Get .reaching) = operands.length) :
    ∃ inst' r', updateReachings inst operands = some inst' ∧
      inst'.Op = inst.Op ∧
      (inst'.Annotations.Get .reaching : ReachingDefinition) = some r' ∧
      r'.length = operands.length ∧
      ∀ i o, operands[i]? = some o →
        r'[i]? = some
          ((((inst.Annotations.Get .reaching : ReachingDefinition).getD []).getD i
            InstructionPointerSet.empty).add o) := by
  unfold updateReachings
  simp only
  cases hs : (inst.Annotations.Get .reaching : ReachingDefinition) with
  | none =>
    simp only [recordOperands_replicate]
    refine ⟨_, _, rfl, rfl, Get_Set _ _ _, by simp, ?_⟩
    intro i o ho
    simp only [List.getElem?_map, ho, Option.map_some', Option.getD_none, List.getD_nil]
    rfl
  | some r =>
    have hl : r.length = operands.length := by
      rcases hlen with h | h
      · rw [hs] at h
        exact absurd h (by simp)
      · simpa [hs, ReachingDefinition.len] using h
    obtain ⟨rs', hrs'⟩ := recordOperands_some r operands (by omega)
    simp only [hrs']
    refine ⟨_, _, rfl, rfl, Get_Set _ _ _, by rw [recordOperands_length hrs', hl], ?_⟩
    intro i o ho
    have hi : i < operands.length := (List.getElem?_eq_some_iff.mp ho).1
    have hri : r[i]? = some r[i] := List.getElem?_eq_getElem (by omega)
    rw [recordOperands_getElem? hrs' i, hri, ho]
    simp [List.getD_eq_getElem?_getD, hri]

theorem updateReachings_stored {inst inst' : Instruction} {operands : List InstructionPointer}
    (h : updateReachings inst operands = some inst') :
    ∃ rs', (inst'.Annotations.Get .reaching : ReachingDefinition) = some rs' ∧
      recordOperands
        (match (inst.Annotations.Get .reaching : ReachingDefinition) with
          | none => List.replicate operands.length InstructionPointerSet.empty
          | some r => r) operands = some rs' := by
  unfold updateReachings at h
  simp only at h
  split at h
  · exact absurd h (by simp)
  · rename_i rs' hrs'
    simp only [Option.some.injEq] at h
    refine ⟨rs', ?_, hrs'⟩
    rw [← h]
    exact Get_Set _ _ _

theorem Grows_refl (prog : Program) : Grows prog prog :=
  fun _ r _ s _ hr hk hx => ⟨r, s, hr, hk, hx⟩

theorem Grows_trans {p1 p2 p3 : Program} (h12 : Grows p1 p2) (h23 : Grows p2 p3) :
    Grows p1 p3 := by
  intro p r k s x hr hk hx
  obtain ⟨r', s', hr', hk', hx'⟩ := h12 p r k s x hr hk hx
  exact h23 p r' k s' x hr' hk' hx'

theorem Grows_of_Get {prog prog' : Program}
    (h : ∀ q : InstructionPointer, q.Get prog' = q.Get prog) : Grows prog prog' := by
  intro p r k s x hr hk hx
  exact ⟨r, s, by simpa [reachingOf, h p] using hr, hk, hx⟩

theorem FactsFit_of_Get {T : OpcodeTable} {prog prog' : Program}
    (h : ∀ q : InstructionPointer, q.Get prog' = q.Get prog) (hf : FactsFit T prog) :
    FactsFit T prog' := by
  intro p inst r hg hr
  rw [h p] at hg
  exact hf p inst r hg hr

theorem fetch_FactsFit {T : OpcodeTable} {b i : Nat} {prog prog' : Program} {w : Walk}
    {c : Operands} (hf : FactsFit T prog) (h : fetch T b i prog w = some (prog', c)) :
    FactsFit T prog' := by
  obtain ⟨inst, inst', hg, hu, hp, -, -, hop, hle, hops, -⟩ := fetch_spec h
  subst hp
  intro p inst2 r hg2 hr2
  rw [Get_setInst] at hg2
  by_cases hpe : p = ⟨b, i⟩
  · subst hpe
    simp only [if_true, hg, Option.map_some', Option.some.injEq] at hg2
    subst hg2
    obtain ⟨rs', hrs', hrec⟩ := updateReachings_stored hu
    rw [hrs'] at hr2
    have hr3 : rs' = r := Option.some.inj hr2
    subst hr3
    rw [recordOperands_length hrec, (updateReachings_code hu).1]
    have hlen : c.operands.length = T.StackReads inst.Op := by
      rw [hops, ← hop]
      simp only [stack.Height] at hle
      simp [hle]
    cases hs : (inst.Annotations.Get .reaching : ReachingDefinition) with
    | none => simp [hlen]
    | some r0 => exact hf _ inst r0 hg hs
  · simp only [hpe, if_false] at hg2
    exact hf p inst2 r hg2 hr2

theorem fetch_Grows {T : OpcodeTable} {b i : Nat} {prog prog' : Program} {w : Walk}
    {c : Operands} (h : fetch T b i prog w = some (prog', c)) : Grows prog prog' := by
  obtain ⟨inst, inst', hg, hu, hp, -⟩ := fetch_spec h
  subst hp
  intro p r k s x hr hk hx
  unfold reachingOf at hr ⊢
  rw [Get_setInst]
  by_cases hpe : p = ⟨b, i⟩
  · subst hpe
    simp only [hg] at hr
    simp only [if_true, hg, Option.map_some']
    obtain ⟨rs', hrs', hrec⟩ := updateReachings_stored hu
    rw [hr] at hrec
    simp only at hrec
    have hget := recordOperands_getElem? hrec k
    rw [hk] at hget
    cases ho : c.operands[k]? with
    | none =>
      rw [ho] at hget
      exact ⟨rs', s, hrs', hget, hx⟩
    | some o =>
      rw [ho] at hget
      exact ⟨rs', s.add o, hrs', hget, (mem_add s o x).mpr (Or.inr hx)⟩
  · simp only [hpe, if_false]
    exact ⟨r, s, hr, hk, hx⟩

theorem body_FactsFit {T : OpcodeTable} (b i : Nat) {prog : Program} (w : Walk)
    (hf : FactsFit T prog) : FactsFit T (body T b i prog w).prog := by
  rw [body_prog_eq]
  cases h : fetch T b i prog w with
  | none => exact hf
  | some r =>
    obtain ⟨p', c⟩ := r
    exact fetch_FactsFit hf h

theorem body_Grows (T : OpcodeTable) (b i : Nat) (prog : Program) (w : Walk) :
    Grows prog (body T b i prog w).prog := by
  rw [body_prog_eq]
  cases h : fetch T b i prog w with
  | none => exact Grows_refl prog
  | some r =>
    obtain ⟨p', c⟩ := r
    exact fetch_Grows h

theorem loop_induct (T : OpcodeTable) (b : Nat) (P : Program → Prop)
    (hstep : ∀ i prog w, P prog → P (body T b i prog w).prog)
    (n i : Nat) (prog : Program) (w : Walk) (h : P prog) : P (loop T b n i prog w).1 := by
  induction n generalizing i prog w with
  | zero =>
    simp only [loop]
    split <;> exact h
  | succ n ih =>
    simp only [loop]
    have hb := hstep i prog w h
    cases hs : body T b i prog w with
    | cont p2 w2 =>
      rw [hs] at hb
      exact ih (i + 1) p2 w2 hb
    | stop p2 out =>
      rw [hs] at hb
      exact hb

theorem Advance_FactsFit {T : OpcodeTable} {prog : Program} (s : reachingState)
    (hf : FactsFit T prog) : FactsFit T (Advance T prog s).1 := by
  unfold Advance
  cases he : entry prog s with
  | none => exact hf
  | some r0 =>
    obtain ⟨p0, w0⟩ := r0
    simp only
    exact loop_induct T s.nextBlock (FactsFit T) (fun i prog w h => body_FactsFit _ i w h) _ _ _ _
      (FactsFit_of_Get (entry_Get he) hf)

theorem Advance_Grows (T : OpcodeTable) (prog : Program) (s : reachingState) :
    Grows prog (Advance T prog s).1 := by
  unfold Advance
  cases he : entry prog s with
  | none => exact Grows_refl prog
  | some r0 =>
    obtain ⟨p0, w0⟩ := r0
    simp only
    exact loop_induct T s.nextBlock (Grows prog)
      (fun i p w h => Grows_trans h (body_Grows T _ i p w)) _ _ _ _
      (Grows_of_Get (entry_Get he))

theorem advanceAll_FactsFit {T : OpcodeTable} (states : List reachingState) {prog : Program}
    (hf : FactsFit T prog) : FactsFit T (advanceAll T prog states) := by
  induction states generalizing prog with
  | nil => exact hf
  | cons s ss ih =>
    simp only [advanceAll, List.foldl_cons]
    exact ih (Advance_FactsFit s hf)

theorem Advance_SameCode (T : OpcodeTable) (prog : Program) (s : reachingState) :
    SameCode prog (Advance T prog s).1 := by
  unfold Advance
  cases he : entry prog s with
  | none => exact SameCode.refl prog
  | some r0 =>
    obtain ⟨p0, w0⟩ := r0
    simp only
    exact loop_induct T s.nextBlock (SameCode prog)
      (fun i p w h => h.trans (body_SameCode T _ i p w)) _ _ _ _ (entry_SameCode he)

theorem advanceAll_SameCode (T : OpcodeTable) (states : List reachingState) (prog : Program) :
    SameCode prog (advanceAll T prog states) := by
  induction states generalizing prog with
  | nil => exact SameCode.refl prog
  | cons s ss ih =>
    simp only [advanceAll, List.foldl_cons]
    exact (Advance_SameCode T prog s).trans (ih _)

theorem advanceAll_append (T : OpcodeTable) (prog : Program) (states : List reachingState)
    (s : reachingState) :
    advanceAll T prog (states ++ [s]) = (Advance T (advanceAll T prog states) s).1 := by
  simp [advanceAll, List.foldl_append]

theorem progAdd_fresh : ∀ p, reachingOf progAdd p = none := by
  intro p
  match p with
  | ⟨0, 0⟩ => rfl
  | ⟨0, 1⟩ => rfl
  | ⟨0, 2⟩ => rfl
  | ⟨0, n + 3⟩ => rfl
  | ⟨b + 1, i⟩ => rfl

/-- C11. Instruction facts are a pointwise union of fixed length: when the
Reaching Definition stored on an instruction is absent or has as many entries
as there are operands, `updateReachings` stores a definition of exactly that
length whose set `i` is the previous set `i` (empty when absent) with
`operands[i]` added. So, after any sequence of `Advance` calls on a program
that started without facts, every Reaching Definition stored on an instruction
has `StackReads` entries, and one more call of `Advance` removes no element
from any set. -/
theorem updateReachings_union (T : OpcodeTable) (inst : Instruction)
    (operands : List InstructionPointer) (prog : Program) (states : List reachingState)
    (s : reachingState)
    (hlen : (inst.Annotations.Get .reaching : ReachingDefinition) = none ∨
      ReachingDefinition.len (inst.Annotations.Get .reaching) = operands.length)
    (hfresh : ∀ p, reachingOf prog p = none) :
    (∃ inst' r', updateReachings inst operands = some inst' ∧
      (inst'.Annotations.Get .reaching : ReachingDefinition) = some r' ∧
      r'.length = operands.length ∧
      ∀ i o, operands[i]? = some o →
        r'[i]? = some
          ((((inst.Annotations.Get .reaching : ReachingDefinition).getD []).getD i
            InstructionPointerSet.empty).add o)) ∧
    (∀ p op r, opOf prog p = some op → reachingOf (advanceAll T prog states) p = some r →
      r.length = T.StackReads op) ∧
    (∀ (p : InstructionPointer) (r : List InstructionPointerSet) (k : Nat)
      (set : InstructionPointerSet) (x : InstructionPointer),
      reachingOf (advanceAll T prog states) p = some r → r[k]? = some set → x ∈ set.keys →
      ∃ (r' : List InstructionPointerSet) (set' : InstructionPointerSet),
        reachingOf (advanceAll T prog (states ++ [s])) p = some r' ∧
          r'[k]? = some set' ∧ x ∈ set'.keys) := by
  refine ⟨?_, ?_, ?_⟩
  · obtain ⟨inst', r', h1, -, h2, h3, h4⟩ := updateReachings_spec inst operands hlen
    exact ⟨inst', r', h1, h2, h3, h4⟩
  · intro p op r hop hr
    have hfit0 : FactsFit T prog := by
      intro q inst0 r0 hg hr0
      have := hfresh q
      simp only [reachingOf, hg] at this
      rw [this] at hr0
      exact absurd hr0 (by simp)
    have hfit := advanceAll_FactsFit (T := T) states hfit0
    have hsame := advanceAll_SameCode T states prog
    cases hg : p.Get prog with
    | none => simp [opOf, hg] at hop
    | some inst0 =>
      simp only [opOf, hg, Option.map_some', Option.some.injEq] at hop
      obtain ⟨inst1, hg1, hop1, -⟩ := hsame.Get_some hg
      simp only [reachingOf, hg1] at hr
      rw [hfit p inst1 r hg1 hr, hop1, hop]
  · intro p r k set x hr hk hx
    rw [advanceAll_append]
    exact Advance_Grows T _ s p r k set x hr hk hx

theorem updateReachings_union_witness :
    reachingOf (advanceAll evm progAdd [⟨0, []⟩, ⟨0, []⟩]) ⟨0, 2⟩ =
        some [InstructionPointerSet.singleton ⟨0, 1⟩, InstructionPointerSet.singleton ⟨0, 0⟩] ∧
      ∀ r, reachingOf (advanceAll evm progAdd [⟨0, []⟩, ⟨0, []⟩]) ⟨0, 2⟩ = some r →
        r.length = evm.StackReads 0x01 :=
  ⟨by decide,
   fun r hr =>
    (updateReachings_union evm (mkInst 0x01 0) [⟨0, 1⟩, ⟨0, 0⟩] progAdd [⟨0, []⟩, ⟨0, []⟩]
      ⟨0, []⟩ (Or.inl rfl) progAdd_fresh).2.1 ⟨0, 2⟩ 0x01 r (by decide) hr⟩

/-! ## Height bookkeeping -/

theorem dispatch_height {T : OpcodeTable} {b i : Nat} {prog : Program} {c : Operands}
    (hpush : classify T c.op = .push → T.StackReads c.op = 0 ∧ T.StackWrites c.op = 1)
    (hdup : classify T c.op = .dup → T.StackWrites c.op = T.StackReads c.op + 1)
    (hswap : classify T c.op = .swap → T.StackWrites c.op = T.StackReads c.op)
    (hother : classify T c.op = .other → T.StackWrites c.op ≤ 1)
    (hclass : classify T c.op ≠ .terminator ∧ classify T c.op ≠ .jump ∧
      classify T c.op ≠ .jumpi)
    (hreads : T.StackReads c.op ≤ stack.Height c.st)
    (hpeek : classify T c.op = .dup ∨ classify T c.op = .swap →
      T.StackReads c.op - 1 < stack.Height c.st)
    (hnew : c.newStack = c.st.drop (T.StackReads c.op)) :
    ∃ s, dispatch T b i prog c = proceed T prog c s ∧
      (stack.Height s : Int) =
        stack.Height c.st + ((T.StackWrites c.op : Int) - T.StackReads c.op) := by
  simp only [stack.Height] at hreads hpeek ⊢
  have hdrop : (c.newStack.length : Int) = c.st.length - T.StackReads c.op := by
    rw [hnew, List.length_drop]
    omega
  cases hc : classify T c.op with
  | terminator => exact absurd hc hclass.1
  | jump => exact absurd hc hclass.2.1
  | jumpi => exact absurd hc hclass.2.2
  | push =>
    refine ⟨stack.NewFrame c.newStack ⟨b, i⟩, by simp only [dispatch, hc], ?_⟩
    have := hpush hc
    simp only [stack.NewFrame, List.length_cons]
    push_cast
    omega
  | dup =>
    have hlt := hpeek (Or.inl hc)
    have hv : stack.Value (stack.UpBy c.st (T.StackReads c.op - 1)) =
        some c.st[T.StackReads c.op - 1] := by
      simp only [stack.Value, stack.UpBy, List.head?_drop]
      exact List.getElem?_eq_getElem hlt
    refine ⟨stack.NewFrame c.st c.st[T.StackReads c.op - 1], by simp only [dispatch, hc, hv], ?_⟩
    have := hdup hc
    simp only [stack.NewFrame, List.length_cons]
    push_cast
    omega
  | swap =>
    have hlt := hpeek (Or.inr hc)
    obtain ⟨s', hs, hlen, -⟩ := Swap_at c.st (T.StackReads c.op - 1) hlt
    refine ⟨s', by simp only [dispatch, hc, hs], ?_⟩
    have := hswap hc
    rw [hlen]
    omega
  | other =>
    have hw := hother hc
    by_cases h1 : T.StackWrites c.op = 1
    · refine ⟨stack.NewFrame c.newStack ⟨b, i⟩, by simp only [dispatch_other hc, h1, if_true], ?_⟩
      simp only [stack.NewFrame, List.length_cons]
      push_cast
      omega
    · have h0 : T.StackWrites c.op = 0 := by omega
      have h2 : ¬ T.StackWrites c.op > 1 := by omega
      refine ⟨c.newStack, by simp only [dispatch_other hc, h1, h2, if_false], ?_⟩
      omega

/-- C20. Height bookkeeping: take opcode metadata in which a push reads 0 and
writes 1, a dup writes one more than it reads, a swap writes what it reads and
any other opcode writes 0 or 1. For a block without terminator, JUMP and JUMPI
that has the fallthrough successor `N`, whose stored facts come from `Advance`,
entered with a stack that is deep enough at every instruction and never higher
than 1024 before one, `Advance` returns the single successor state at `N`, and
the height of its stack is the entry height plus the sum of
`StackWrites - StackReads` over the instructions of the block. -/
theorem Advance_height (T : OpcodeTable) (prog : Program) (instr : reachingState)
    (blk : BasicBlock) (N : Nat)
    (hblk : prog.block instr.nextBlock = some blk)
    (hpush : ∀ op, classify T op = .push → T.StackReads op = 0 ∧ T.StackWrites op = 1)
    (hdup : ∀ op, classify T op = .dup → T.StackWrites op = T.StackReads op + 1)
    (hswap : ∀ op, classify T op = .swap → T.StackWrites op = T.StackReads op)
    (hother : ∀ op, classify T op = .other → T.StackWrites op ≤ 1)
    (hclass : ∀ inst ∈ blk.Instructions, classify T inst.Op ≠ .terminator ∧
      classify T inst.Op ≠ .jump ∧ classify T inst.Op ≠ .jumpi)
    (hnext : blk.Next = some N)
    (hfacts : ∀ inst ∈ blk.Instructions, ∀ r,
      (inst.Annotations.Get .reaching : ReachingDefinition) = some r →
      r.length = T.StackReads inst.Op)
    (hdeep : ∀ j w op, walkAt T prog instr j = some w →
      opOf prog ⟨instr.nextBlock, j⟩ = some op →
      T.StackReads op ≤ stack.Height w.st ∧
        (classify T op = .dup ∨ classify T op = .swap → T.StackReads op - 1 < stack.Height w.st))
    (hcap : ∀ j w, walkAt T prog instr j = some w → j < blk.Instructions.length →
      stack.Height w.st ≤ 1024) :
    ∃ st, (Advance T prog instr).2 = .ok [⟨N, st⟩] ∧
      (stack.Height st : Int) =
        stack.Height instr.stack +
          (blk.Instructions.map
            (fun inst => (T.StackWrites inst.Op : Int) - T.StackReads inst.Op)).sum := by
  have hentry : entry prog instr =
      some (prog.setBlockAnnotations instr.nextBlock
        (updateBlockReachings blk instr.stack).Annotations,
          ⟨wrapInt blk.Offset, instr.stack⟩) := by
    simp only [entry, hblk]
  have hwalk : ∀ j, j ≤ blk.Instructions.length →
      ∃ w, walkAt T prog instr j = some w ∧
        (stack.Height w.st : Int) =
          stack.Height instr.stack +
            ((blk.Instructions.take j).map
              (fun inst => (T.StackWrites inst.Op : Int) - T.StackReads inst.Op)).sum := by
    intro j
    induction j with
    | zero =>
      intro _
      exact ⟨⟨wrapInt blk.Offset, instr.stack⟩, by simp [walkAt, reached, hentry, walkFrom], by simp⟩
    | succ j ih =>
      intro hj
      obtain ⟨w, hw, hh⟩ := ih (by omega)
      obtain ⟨p0, w0, p1, he, hwf⟩ := walkAt_some hw
      have hlt : j < blk.Instructions.length := by omega
      have hidx : blk.Instructions[j]? = some blk.Instructions[j] :=
        List.getElem?_eq_getElem hlt
      have hg : InstructionPointer.Get prog ⟨instr.nextBlock, j⟩ = some blk.Instructions[j] := by
        simp only [InstructionPointer.Get, hblk, hidx]
      have hmem : blk.Instructions[j] ∈ blk.Instructions := List.getElem_mem hlt
      have hg1 : InstructionPointer.Get p1 ⟨instr.nextBlock, j⟩ = some blk.Instructions[j] := by
        rw [walkFrom_frame hwf _ (by simp), entry_Get he, hg]
      have hd := hdeep j w blk.Instructions[j].Op hw (by simp [opOf, hg])
      have hle : T.StackReads blk.Instructions[j].Op ≤ w.st.length := hd.1
      have hpop : stack.Popn w.st (T.StackReads blk.Instructions[j].Op) =
          some (w.st.take (T.StackReads blk.Instructions[j].Op),
            w.st.drop (T.StackReads blk.Instructions[j].Op)) := by
        simp [stack.Popn, hle]
      have hlen : (inst : Instruction) → inst = blk.Instructions[j] →
          ((inst.Annotations.Get .reaching : ReachingDefinition) = none ∨
            ReachingDefinition.len (inst.Annotations.Get .reaching) =
              (w.st.take (T.StackReads inst.Op)).length) := by
        intro inst hinst
        subst hinst
        cases hs : (blk.Instructions[j].Annotations.Get .reaching : ReachingDefinition) with
        | none => exact Or.inl rfl
        | some r =>
          right
          simp only [ReachingDefinition.len, List.length_take]
          rw [hfacts _ hmem r hs]
          omega
      obtain ⟨inst', r', hu, -⟩ :=
        updateReachings_spec blk.Instructions[j]
          (w.st.take (T.StackReads blk.Instructions[j].Op)) (hlen _ rfl)
      have hfetch : fetch T instr.nextBlock j p1 w =
          some (p1.setInst ⟨instr.nextBlock, j⟩ inst',
            ⟨w.pc, w.st, blk.Instructions[j].Op,
              w.st.take (T.StackReads blk.Instructions[j].Op),
              w.st.drop (T.StackReads blk.Instructions[j].Op)⟩) := by
        simp only [fetch, hg1, hpop, hu]
      have hsw : reachedSwitch T prog instr j =
          some (p1.setInst ⟨instr.nextBlock, j⟩ inst',
            ⟨w.pc, w.st, blk.Instructions[j].Op,
              w.st.take (T.StackReads blk.Instructions[j].Op),
              w.st.drop (T.StackReads blk.Instructions[j].Op)⟩) := by
        simp only [reachedSwitch, reached, he, hwf, hfetch]
      obtain ⟨s, hds, hhs⟩ :=
        @dispatch_height T instr.nextBlock j (p1.setInst ⟨instr.nextBlock, j⟩ inst')
          ⟨w.pc, w.st, blk.Instructions[j].Op,
              w.st.take (T.StackReads blk.Instructions[j].Op),
              w.st.drop (T.StackReads blk.Instructions[j].Op)⟩
          (hpush _) (hdup _) (hswap _) (hother _) (hclass _ hmem) hd.1 hd.2 rfl
      have hnextw := (Advance_of_proceed hsw hds).1 (hcap j w hw hlt)
      have hsum : ((blk.Instructions.take (j + 1)).map
            (fun inst => (T.StackWrites inst.Op : Int) - T.StackReads inst.Op)).sum =
          ((blk.Instructions.take j).map
            (fun inst => (T.StackWrites inst.Op : Int) - T.StackReads inst.Op)).sum +
            ((T.StackWrites blk.Instructions[j].Op : Int) -
              T.StackReads blk.Instructions[j].Op) := by
        rw [List.take_succ, hidx, Option.toList_some, List.map_append, List.sum_append,
          List.map_singleton, List.sum_singleton]
      refine ⟨_, hnextw, ?_⟩
      simp only at hhs ⊢
      rw [hhs, hh, hsum, add_assoc]
  obtain ⟨w, hw, hh⟩ := hwalk blk.Instructions.length (Nat.le_refl _)
  rw [List.take_length] at hh
  refine ⟨w.st, ?_, hh⟩
  obtain ⟨p0, w0, p1, he, hwf⟩ := walkAt_some hw
  have hsame : SameCode prog p1 := (entry_SameCode he).trans (walkFrom_SameCode hwf)
  have hsize : prog.size instr.nextBlock = blk.Instructions.length := by
    simp [Program.size, hblk]
  have hnx : prog.next instr.nextBlock = some N := by
    simp [Program.next, hblk, hnext]
  unfold Advance
  simp only [he, hsize]
  have := loop_walkFrom 0 hwf
  simp only [Nat.add_zero, Nat.zero_add] at this
  rw [this, loop, hsame.next, hnx]

theorem evm_classify_push {op : Nat} (h : classify evm op = .push) :
    0x60 ≤ op ∧ op ≤ 0x7f := by
  unfold classify at h
  simp only [evm, decide_eq_true_eq] at h
  split_ifs at h
  assumption

theorem evm_classify_dup {op : Nat} (h : classify evm op = .dup) :
    0x80 ≤ op ∧ op ≤ 0x8f := by
  unfold classify at h
  simp only [evm, decide_eq_true_eq] at h
  split_ifs at h
  assumption

theorem evm_classify_swap {op : Nat} (h : classify evm op = .swap) :
    0x90 ≤ op ∧ op ≤ 0x9f := by
  unfold classify at h
  simp only [evm, decide_eq_true_eq] at h
  split_ifs at h
  assumption

theorem evm_classify_other {op : Nat} (h : classify evm op = .other) :
    ¬ (0x60 ≤ op ∧ op ≤ 0x9f) := by
  unfold classify at h
  simp only [evm, decide_eq_true_eq] at h
  split_ifs at h
  unfold OpCode at *
  omega

theorem evm_push_effect (op : Nat) (h : classify evm op = .push) :
    evm.StackReads op = 0 ∧ evm.StackWrites op = 1 := by
  have hr := evm_classify_push h
  simp only [evm]
  constructor <;> split_ifs <;> unfold OpCode at * <;> omega

theorem evm_dup_effect (op : Nat) (h : classify evm op = .dup) :
    evm.StackWrites op = evm.StackReads op + 1 := by
  have hr := evm_classify_dup h
  simp only [evm]
  split_ifs <;> unfold OpCode at * <;> omega

theorem evm_swap_effect (op : Nat) (h : classify evm op = .swap) :
    evm.StackWrites op = evm.StackReads op := by
  have hr := evm_classify_swap h
  simp only [evm]
  split_ifs <;> unfold OpCode at * <;> omega

theorem evm_other_effect (op : Nat) (h : classify evm op = .other) :
    evm.StackWrites op ≤ 1 := by
  have hr := evm_classify_other h
  simp only [evm]
  split_ifs <;> unfold OpCode at * <;> omega

theorem Advance_height_witness :
    ∃ st, (Advance evm progSum ⟨0, []⟩).2 = .ok [⟨1, st⟩] ∧
      (stack.Height st : Int) =
        stack.Height ([] : StackFrame) +
          ([mkInst 0x60 1, mkInst 0x60 2, mkInst 0x01 0, mkInst 0x80 0, mkInst 0x90 0].map
            (fun inst => (evm.StackWrites inst.Op : Int) - evm.StackReads inst.Op)).sum :=
  Advance_height evm progSum ⟨0, []⟩
    (mkBlock 0 [mkInst 0x60 1, mkInst 0x60 2, mkInst 0x01 0, mkInst 0x80 0, mkInst 0x90 0]
      (some 1)) 1 rfl
    evm_push_effect evm_dup_effect evm_swap_effect evm_other_effect
    (by
      intro inst h
      simp only [mkBlock, List.mem_cons, List.mem_singleton, List.not_mem_nil, or_false] at h
      rcases h with h | h | h | h | h <;> subst h <;> decide)
    rfl
    (by
      intro inst h r hr
      simp only [mkBlock, List.mem_cons, List.mem_singleton, List.not_mem_nil, or_false] at h
      rcases h with h | h | h | h | h <;> subst h <;> exact absurd hr (by intro h'; cases h'))
    (by
      intro j w op hw ho
      match j, hw, ho with
      | 0, hw, ho =>
        have h1 : walkAt evm progSum ⟨0, []⟩ 0 = some ⟨0, []⟩ := by decide
        have h2 : opOf progSum ⟨0, 0⟩ = some 0x60 := by decide
        rw [h1] at hw; rw [h2] at ho
        cases hw; cases ho; decide
      | 1, hw, ho =>
        have h1 : walkAt evm progSum ⟨0, []⟩ 1 = some ⟨2, [⟨0, 0⟩]⟩ := by decide
        have h2 : opOf progSum ⟨0, 1⟩ = some 0x60 := by decide
        rw [h1] at hw; rw [h2] at ho
        cases hw; cases ho; decide
      | 2, hw, ho =>
        have h1 : walkAt evm progSum ⟨0, []⟩ 2 = some ⟨4, [⟨0, 1⟩, ⟨0, 0⟩]⟩ := by decide
        have h2 : opOf progSum ⟨0, 2⟩ = some 0x01 := by decide
        rw [h1] at hw; rw [h2] at ho
        cases hw; cases ho; decide
      | 3, hw, ho =>
        have h1 : walkAt evm progSum ⟨0, []⟩ 3 = some ⟨5, [⟨0, 2⟩]⟩ := by decide
        have h2 : opOf progSum ⟨0, 3⟩ = some 0x80 := by decide
        rw [h1] at hw; rw [h2] at ho
        cases hw; cases ho; decide
      | 4, hw, ho =>
        have h1 : walkAt evm progSum ⟨0, []⟩ 4 = some ⟨6, [⟨0, 2⟩, ⟨0, 2⟩]⟩ := by decide
        have h2 : opOf progSum ⟨0, 4⟩ = some 0x90 := by decide
        rw [h1] at hw; rw [h2] at ho
        cases hw; cases ho; decide
      | n + 5, hw, ho =>
        have h2 : opOf progSum ⟨0, n + 5⟩ = none := rfl
        rw [h2] at ho
        cases ho)
    (by
      intro j w hw hj
      match j, hw, hj with
      | 0, hw, _ =>
        have h1 : walkAt evm progSum ⟨0, []⟩ 0 = some ⟨0, []⟩ := by decide
        rw [h1] at hw; cases hw; decide
      | 1, hw, _ =>
        have h1 : walkAt evm progSum ⟨0, []⟩ 1 = some ⟨2, [⟨0, 0⟩]⟩ := by decide
        rw [h1] at hw; cases hw; decide
      | 2, hw, _ =>
        have h1 : walkAt evm progSum ⟨0, []⟩ 2 = some ⟨4, [⟨0, 1⟩, ⟨0, 0⟩]⟩ := by decide
        rw [h1] at hw; cases hw; decide
      | 3, hw, _ =>
        have h1 : walkAt evm progSum ⟨0, []⟩ 3 = some ⟨5, [⟨0, 2⟩]⟩ := by decide
        rw [h1] at hw; cases hw; decide
      | 4, hw, _ =>
        have h1 : walkAt evm progSum ⟨0, []⟩ 4 = some ⟨6, [⟨0, 2⟩, ⟨0, 2⟩]⟩ := by decide
        rw [h1] at hw; cases hw; decide
      | n + 5, _, hj =>
        simp [mkBlock] at hj)

end Evmdis
